import Mathlib

/-
  Verification of the MicroAlloc allocator (src/mm.c) against its
  natural-language specification.

  The C source is shallowly embedded below.  Machine integers (size_t)
  are modelled as Nat with explicit reduction mod 2^64 exactly where the
  C arithmetic can wrap (the ALIGN/BLOCKSIZE computation used by the
  overflow checks).  The heap is modelled as the physical sequence of
  blocks between the prologue and epilogue sentinels; every block carries
  the fields stored in its header word (size, allocated bit, quick bit).
  The source keeps every header/footer pair synchronised (every flag or
  size write is followed by HDRTOFTR while the footer is live), so a
  block's boundary tag is represented once.  The free lists are the
  LISTCOUNT intrusive doubly-linked lists of mm.c, represented as lists
  of block addresses in the same order (head first; insertion pushes at
  the head, exactly as free_list_insert does).
-/

namespace MM

/-! ## Constants (mm.c lines 32-46) -/

/-- `WSIZE = sizeof(size_t)` on the 64-bit target the spec describes (W = 8). -/
def WSIZE : Nat := 8

/-- `DSIZE = 2 * WSIZE`. -/
def DSIZE : Nat := 2 * WSIZE

/-- `ALIGNMENT = DSIZE` (the spec's alignment quantum A). -/
def ALIGNMENT : Nat := DSIZE

/-- `MINBLOCK = sizeof(Block) + WSIZE` = 3 words + 1 word = 32 bytes. -/
def MINBLOCK : Nat := 32

/-- `MAXSMALL` : maximum small list size in bytes. -/
def MAXSMALL : Nat := 504

/-- `LISTCOUNT` : number of free lists. -/
def LISTCOUNT : Nat := 75

/-- Modulus of the 64-bit `size_t` arithmetic. -/
def U64 : Nat := 2 ^ 64

/-- `SIZE_MAX` for a 64-bit `size_t`. -/
def SIZE_MAX : Nat := U64 - 1

/-- `ENOMEM` (the out-of-memory indicator value stored into `errno`). -/
def ENOMEM : Nat := 12

/-! ## Pure size arithmetic (mm.c lines 50, 68) -/

/-- `ALIGN(size) = ((size) + (ALIGNMENT-1)) & ~0x7` on `size_t`.
    `x & ~0x7` clears the low three bits of a 64-bit word, i.e. it is
    `x - x % 8` for `x < 2^64`; the addition wraps mod `2^64`.
    Note the mask is `~0x7` (8-byte granularity) even though
    `ALIGNMENT` is 16. -/
def cALIGN (size : Nat) : Nat :=
  ((size + (ALIGNMENT - 1)) % U64) - ((size + (ALIGNMENT - 1)) % U64) % 8

/-- `BLOCKSIZE(u) = u + DSIZE` on `size_t` (wraps mod `2^64`). -/
def BLOCKSIZE (u : Nat) : Nat := (u + DSIZE) % U64

/-- The block size malloc/realloc compute for a user request:
    `ALIGN(BLOCKSIZE(size))`. -/
def reqSize (u : Nat) : Nat := cALIGN (BLOCKSIZE u)

/-! ## find_list_index (mm.c lines 417-430) -/

/-- The bit-counting loop of `find_list_index`:
    `while (s) { l++; s >>= 1; }`.  Each iteration halves `s`, so `s`
    itself bounds the iteration count; the first argument makes the
    recursion structural and never runs out before the loop exits. -/
def fliLoopAux : Nat → Nat → Nat
  | _, 0 => 0
  | 0, _ + 1 => 0
  | fuel + 1, s + 1 => fliLoopAux fuel ((s + 1) / 2) + 1

/-- `l` after `while (s) { l++; s >>= 1; }`. -/
def fliLoop (s : Nat) : Nat := fliLoopAux s s

/-- `find_list_index` returns a C `int`; for `s < 8` the small branch
    yields `-1`, so the result type is `Int`. -/
def find_list_index (s : Nat) : Int :=
  if s < 512 then ((s >>> 3 : Nat) : Int) - 1
  else
    let l := fliLoop (s >>> 10)
    if l < 12 then 63 + l else ((LISTCOUNT : Int) - 1)

/-! ## The heap model -/

/-- One block of the managed region: the contents of its header word
    (and of its synchronised footer).  `size` is the full block size in
    bytes (`SIZE(b)`), `alloc` the allocated bit, `quick` the quick-list
    bit. -/
structure B where
  size : Nat
  alloc : Bool
  quick : Bool
deriving DecidableEq, Repr

/-- The header the boundary-tag walk sees beyond either end of the block
    sequence: a sentinel (prologue/epilogue), size 0 and allocated. -/
def sentinel : B := ⟨0, true, false⟩

/-- Allocator state.  `blocks` is the physical sequence of non-sentinel
    blocks; the prologue header sits one word below `heapStart` and the
    epilogue at `heapStart + sum of sizes`.  `freeLists` are the
    LISTCOUNT lists of block addresses.  `budget` is how many more bytes
    `sbrk` will grant before failing (the OS-refusal oracle); `brk` is
    the current program break.  `mem` is the user payload memory (byte
    addressed).  `inited` is malloc_init's `static int init` flag. -/
structure AState where
  heapStart : Nat
  blocks : List B
  freeLists : List (List Nat)
  errno : Nat
  budget : Nat
  brk : Nat
  mem : Nat → Nat
  inited : Bool

/-- The process state before the allocator has ever run: program break
    at `brk0`, `budget` bytes of segment growth still available, `errno`
    clear, and no blocks, lists or initialization. -/
def fresh (brk0 budget : Nat) : AState :=
  ⟨0, [], [], 0, budget, brk0, fun _ => 0, false⟩

/-- Sum of the sizes of a block sequence. -/
def sumsz (bs : List B) : Nat := (bs.map B.size).sum

/-- Address of the epilogue sentinel. -/
def epilogue (st : AState) : Nat := st.heapStart + sumsz st.blocks

/-- Index of the block whose header is at address `a`, scanning the
    physical sequence from `base` (the boundary-tag walk of the source
    parses memory this way: each header is `SIZE` bytes after the
    previous one). -/
def idxAt (base : Nat) (bs : List B) (a : Nat) : Option Nat :=
  match bs with
  | [] => none
  | b :: t => if a = base then some 0 else (idxAt (base + b.size) t a).map (· + 1)

/-- The block stored at address `a`, if any. -/
def blockAt (st : AState) (a : Nat) : Option B :=
  match idxAt st.heapStart st.blocks a with
  | none => none
  | some i => st.blocks[i]?

/-- `SIZE` of the block at address `a` (0 if `a` is not a block start;
    only consulted at valid block addresses). -/
def sizeAt (st : AState) (a : Nat) : Nat := ((blockAt st a).getD sentinel).size

/-! ## Free-list operations (mm.c lines 489-539) -/

/-- Drop address `a` from every free list.  `free_list_remove` splices
    `b` out of whichever list holds it using `b`'s own links (or pops it
    if it is a head); a block is on at most one list, so the splice is
    exactly the removal of its address from every list. -/
def listsErase (ls : List (List Nat)) (a : Nat) : List (List Nat) :=
  ls.map (fun l => l.filter (· ≠ a))

/-- `free_list_remove` (mm.c 519-539): splice `b` out of its list, then
    `MARKALLOC(b); HDRTOFTR(b)` (set allocated, clear quick). -/
def free_list_remove (st : AState) (a : Nat) : AState :=
  match idxAt st.heapStart st.blocks a with
  | none => st
  | some i =>
    match st.blocks[i]? with
    | none => st
    | some b =>
      { st with freeLists := listsErase st.freeLists a,
                blocks := st.blocks.set i { b with alloc := true, quick := false } }

/-- `free_list_insert` (mm.c 489-509): `MARKFREE`, `MARKUNQUICK`,
    `HDRTOFTR`, then push the block at the head of the unsorted list
    (index 0) or of the bucket `find_list_index(SIZE(b))`.  (For a block
    size below 8 the C index would be `-1`, an out-of-bounds access; the
    model clamps with `toNat`, and such sizes never occur in well-formed
    states.) -/
def free_list_insert (st : AState) (a : Nat) (unsorted : Bool) : AState :=
  match idxAt st.heapStart st.blocks a with
  | none => st
  | some i =>
    match st.blocks[i]? with
    | none => st
    | some b =>
      let ix := if unsorted then 0 else (find_list_index b.size).toNat
      { st with blocks := st.blocks.set i { b with alloc := false, quick := false },
                freeLists := st.freeLists.set ix (a :: st.freeLists.getD ix []) }

/-! ## Coalescing (mm.c lines 542-568) -/

/-- `coalesce(b)`: merge `b` with its physical neighbors when their
    boundary tags carry neither the allocated nor the quick bit
    (`PREVUNCOAL`/`NEXTUNCOAL`).  Beyond the first/last block the walk
    meets the prologue/epilogue sentinel.  Each coalesced neighbor is
    `free_list_remove`d; if any growth occurred and `b` itself was free
    it is removed too, and `SETSIZE(local_block, new_size)` writes the
    merged size, preserving `local_block`'s header flags (every
    constituent that was free has just been `MARKALLOC`ed by its
    removal).  Returns the merged block's address; `none` if `a` is not
    a block start (the C would be reading a garbage header). -/
def coalesce (st : AState) (a : Nat) : Option (AState × Nat) :=
  match idxAt st.heapStart st.blocks a with
  | none => none
  | some i =>
    match st.blocks[i]? with
    | none => none
    | some b =>
      let pb := if i = 0 then sentinel else st.blocks.getD (i - 1) sentinel
      let nb := st.blocks.getD (i + 1) sentinel
      let mp := !pb.alloc && !pb.quick
      let mn := !nb.alloc && !nb.quick
      let newSize := b.size + (if mp then pb.size else 0) + (if mn then nb.size else 0)
      if newSize = b.size then some (st, a)
      else
        let st := if mp then free_list_remove st (a - pb.size) else st
        let st := if mn then free_list_remove st (a + b.size) else st
        let st := if !b.alloc then free_list_remove st a else st
        let lo := if mp then i - 1 else i
        let hi := if mn then i + 1 else i
        let merged : B := ⟨newSize, true, if mp then false else if b.alloc then b.quick else false⟩
        some ({ st with blocks := st.blocks.take lo ++ merged :: st.blocks.drop (hi + 1) },
              if mp then a - pb.size else a)

/-! ## Split (mm.c lines 399-414) -/

/-- `split(b, size)`: if the excess is at least `MINBLOCK`, shrink `b`
    to `size` (flags preserved), create the remainder block right after
    it and insert it onto the unsorted list.  The remainder's header
    flag bits are uninitialized bytes in C until `free_list_insert`
    clears them; the model writes them as allocated so the intermediate
    state is deterministic (the insert immediately overwrites them). -/
def split (st : AState) (a : Nat) (size : Nat) : AState :=
  match idxAt st.heapStart st.blocks a with
  | none => st
  | some i =>
    match st.blocks[i]? with
    | none => st
    | some b =>
      let new_size := b.size - size
      if MINBLOCK ≤ new_size then
        let st' := { st with blocks := st.blocks.take i ++
                       { b with size := size } :: ⟨new_size, true, false⟩ :: st.blocks.drop (i + 1) }
        free_list_insert st' (a + size) true
      else st

/-! ## Heap extension (mm.c lines 374-394) -/

/-- `extend_heap(size)`: `sbrk(size)`; on success the old epilogue
    becomes the header of a fresh allocated block of that size and a new
    epilogue is written `size` bytes on.  The OS refusal oracle is the
    remaining `budget`. -/
def extend_heap (st : AState) (size : Nat) : AState × Option Nat :=
  if st.budget < size then ({ st with errno := ENOMEM }, none)
  else
    ({ st with blocks := st.blocks ++ [⟨size, true, false⟩],
               budget := st.budget - size, brk := st.brk + size },
     some (epilogue st))

/-! ## Search (mm.c lines 435-485) -/

/-- The chain walk of `find_in_list` for sizes above `MAXSMALL`:
    first block with `SIZE(curr) >= size`. -/
def fil_walk (st : AState) (l : List Nat) (size : Nat) : Option Nat :=
  match l with
  | [] => none
  | a :: rest => if size ≤ sizeAt st a then some a else fil_walk st rest size

/-- `find_in_list` (mm.c 435-447): for small sizes just return the head
    (no size check); otherwise walk the chain. -/
def find_in_list (st : AState) (l : List Nat) (size : Nat) : Option Nat :=
  if size ≤ MAXSMALL then l.head? else fil_walk st l size

/-- The `for (list_index = find_list_index(size); ...)` scan of
    `find_block` over the given bucket indices. -/
def scanLists (st : AState) (size : Nat) : List Nat → Option Nat
  | [] => none
  | ix :: rest =>
    match find_in_list st (st.freeLists.getD ix []) size with
    | some a => some a
    | none => scanLists st size rest

/-- The unsorted-list sweep of `find_block` (mm.c 460-472): repeatedly
    take the head of list 0, coalesce it, remove it if it is free, return
    it if big enough, else insert it onto its size bucket.  `fuel` bounds
    the iteration count (each iteration shortens the unsorted list, so
    any fuel beyond its length is enough); `none` = out of fuel or a
    garbage-header read. -/
def sweep (fuel : Nat) (st : AState) (size : Nat) : Option (AState × Option Nat) :=
  match fuel with
  | 0 => none
  | fuel + 1 =>
    match (st.freeLists.getD 0 []).head? with
    | none => some (st, none)
    | some a0 =>
      match coalesce st a0 with
      | none => none
      | some (st, a) =>
        match blockAt st a with
        | none => none
        | some b =>
          let st := if !b.alloc then free_list_remove st a else st
          if size ≤ b.size then some (st, some a)
          else sweep fuel (free_list_insert st a false) size

/-- `find_block` (mm.c 452-485): the unsorted sweep, then the segregated
    scan from index `find_list_index(size)` up to `LISTCOUNT - 1`.
    (For `size < 8` the C start index would be `-1`, an out-of-bounds
    access; the model clamps with `toNat`.) -/
def find_block (fuel : Nat) (st : AState) (size : Nat) : Option (AState × Option Nat) :=
  match sweep fuel st size with
  | none => none
  | some (st, some a) => some (st, some a)
  | some (st, none) =>
    let start := (find_list_index size).toNat
    some (st, scanLists st size (List.range' start (LISTCOUNT - start)))

/-! ## Initialization (mm.c lines 139-184) -/

/-- `malloc_init`: allocate the free-list table with `sbrk`, then grow
    the segment far enough to place an aligned prologue and epilogue.
    Returns `false` (C `-1`) with `errno = ENOMEM` if the OS refuses.
    `heapStart` is the address one word past the prologue header, where
    the first real block will sit. -/
def malloc_init (st : AState) : AState × Bool :=
  if st.inited then (st, true)
  else
    let tbl := WSIZE * LISTCOUNT
    if st.budget < tbl then ({ st with errno := ENOMEM }, false)
    else
      let st := { st with budget := st.budget - tbl, brk := st.brk + tbl }
      let old_brk := st.brk
      let pad := cALIGN old_brk - old_brk
      let req := cALIGN (pad + WSIZE + 3 * WSIZE)
      if st.budget < req then ({ st with errno := ENOMEM }, false)
      else
        ({ st with budget := st.budget - req, brk := st.brk + req,
                   freeLists := List.replicate LISTCOUNT ([] : List Nat),
                   blocks := [],
                   heapStart := old_brk + pad + WSIZE,
                   inited := true }, true)

/-! ## malloc (mm.c lines 190-244) -/

/-- The tail of `malloc` after a block has been obtained (mm.c 234-243):
    remove it from its list if it came from one, split off the excess,
    and return the payload pointer `BLOCKTOUSER(b)`. -/
def malloc_fin (st : AState) (a : Nat) (size : Nat) : Option (AState × Option Nat) :=
  match blockAt st a with
  | none => none
  | some b =>
    let st := if !b.alloc then free_list_remove st a else st
    let st := split st a size
    some (st, some (a + WSIZE))

/-- The heap-growth arm of `malloc` when the search fails (mm.c
    212-231): if `last_in_heap = PREVRAW(epilogue)` is free, extend the
    heap by the missing amount (`extend_heap(size - SIZE(found))`,
    computed with wrapping `size_t` subtraction), then
    `free_list_remove(found); SETSIZE(found, size)` — the extension
    block just created is physically contiguous with `found`, so the
    `SETSIZE` absorbs it and the net effect on the block sequence is to
    resize the final block in place.  Otherwise extend the heap by a
    whole new block.  On an empty heap `PREVRAW(epilogue)` reaches the
    prologue sentinel (allocated), so a fresh block is appended. -/
def malloc_grow (st : AState) (size : Nat) : Option (AState × Option Nat) :=
  match st.blocks.getLast? with
  | some lb =>
    if !lb.alloc then
      let lbAddr := st.heapStart + sumsz st.blocks.dropLast
      match extend_heap st ((U64 + size - lb.size) % U64) with
      | (st, none) => some (st, none)
      | (st, some _) =>
        let st := free_list_remove st lbAddr
        let st := { st with blocks := st.blocks.dropLast.dropLast ++ [⟨size, true, false⟩] }
        malloc_fin st lbAddr size
    else
      match extend_heap st size with
      | (st, none) => some (st, none)
      | (st, some a) => malloc_fin st a size
  | none =>
    match extend_heap st size with
    | (st, none) => some (st, none)
    | (st, some a) => malloc_fin st a size

/-- `malloc` after the zero/overflow checks, with `size` already the
    aligned block size: search, then the found block or the heap-growth
    arm. -/
def malloc_core (fuel : Nat) (st : AState) (size : Nat) : Option (AState × Option Nat) :=
  match find_block fuel st size with
  | none => none
  | some (st, found?) =>
    match found? with
    | some a => malloc_fin st a size
    | none => malloc_grow st size

/-- `malloc` (mm.c 190-244): lazy init, the `size == 0` early return
    (null, `errno` untouched), the overflow check
    `size > ALIGN(BLOCKSIZE(size))` (null, `errno = ENOMEM`), then the
    search/extend path on `size = ALIGN(BLOCKSIZE(size))`. -/
def malloc (fuel : Nat) (st : AState) (size : Nat) : Option (AState × Option Nat) :=
  match malloc_init st with
  | (st, false) => some (st, none)
  | (st, true) =>
    if size = 0 then some (st, none)
    else if reqSize size < size then some ({ st with errno := ENOMEM }, none)
    else malloc_core fuel st (reqSize size)

/-! ## free (mm.c lines 255-263) -/

/-- `free(ptr)`: nothing for null; otherwise coalesce the block
    `USERTOBLOCK(ptr)` and insert the result onto the unsorted list. -/
def free (st : AState) (p : Nat) : Option AState :=
  if p = 0 then some st
  else
    match coalesce st (p - WSIZE) with
    | none => none
    | some (st, a) => some (free_list_insert st a true)

/-! ## calloc (mm.c lines 267-285) -/

/-- `memset(p, 0, n)` on the byte memory. -/
def memset0 (m : Nat → Nat) (p n : Nat) : Nat → Nat :=
  fun x => if p ≤ x ∧ x < p + n then 0 else m x

/-- `calloc(nmemb, size)` (mm.c 267-285): overflow check
    `size && nmemb > SIZE_MAX/size` (null, `errno = ENOMEM`), else
    `malloc(nmemb * size)` and zero the payload. -/
def calloc (fuel : Nat) (st : AState) (nmemb size : Nat) : Option (AState × Option Nat) :=
  let total_size := (nmemb * size) % U64
  if size ≠ 0 ∧ SIZE_MAX / size < nmemb then
    some ({ st with errno := ENOMEM }, none)
  else
    match malloc fuel st total_size with
    | none => none
    | some (st, none) => some (st, none)
    | some (st, some p) => some ({ st with mem := memset0 st.mem p total_size }, some p)

/-! ## realloc (mm.c lines 289-371) -/

/-- `memmove(dst, src, n)` on the byte memory: the destination receives
    the bytes the source held before the call (overlap-tolerant). -/
def memcopy (m : Nat → Nat) (dst src n : Nat) : Nat → Nat :=
  fun x => if dst ≤ x ∧ x < dst + n then m (src + (x - dst)) else m x

/-- realloc's grow-path loop:
    `do { old_size = SIZE(b); b = coalesce(b); } while (SIZE(b) > old_size)`. -/
def reallocLoop (fuel : Nat) (st : AState) (a : Nat) : Option (AState × Nat) :=
  match fuel with
  | 0 => none
  | fuel + 1 =>
    let old := sizeAt st a
    match coalesce st a with
    | none => none
    | some (st, a) => if old < sizeAt st a then reallocLoop fuel st a else some (st, a)

/-- `realloc(ptr, size)` (mm.c 289-371).  Null `ptr` behaves as malloc.
    For `size == 0` the source calls `free(ptr)` but then KEEPS GOING,
    operating on the freed block (there is no return; see §9 of the
    spec); the model follows the code.  Grow path: coalesce until the
    size stops growing; extend the heap in place when the block is last
    (`SETSIZE(b, size)` absorbing the extension block, then the TODO
    branch re-marking it allocated), else move via `malloc` (null +
    `errno = ENOMEM` on failure); copy `original_size` bytes when moved;
    free the old block only when the new one is at a higher address.
    Shrink path: remove the block from its list if it is free, copy
    `min(original_size, size)` bytes if the payload address changed,
    then split.  `none` = out of fuel, or a read of a header that no
    longer exists (undefined behavior in C). -/
def realloc (fuel : Nat) (st : AState) (p u : Nat) : Option (AState × Option Nat) :=
  if p = 0 then malloc fuel st u
  else
    match (if u = 0 then free st p else some st) with
    | none => none
    | some st =>
      let size := reqSize u
      let a0 := p - WSIZE
      match blockAt st a0 with
      | none => none
      | some b0 =>
        let original_size := b0.size - DSIZE
        match (if b0.size < size then reallocLoop fuel st a0 else some (st, a0)) with
        | none => none
        | some (st, a) =>
          match blockAt st a with
          | none => none
          | some b =>
            if b.size < size then
              if a + b.size = epilogue st then
                match extend_heap st ((U64 + size - b.size) % U64) with
                | (st, none) => some (st, none)
                | (st, some _) =>
                  let merged : B := if b.alloc then ⟨size, b.alloc, b.quick⟩
                                    else ⟨size, true, false⟩
                  let st := { st with blocks := st.blocks.dropLast.dropLast ++ [merged] }
                  let newp := a + WSIZE
                  let st := if newp ≠ p then
                              { st with mem := memcopy st.mem newp p original_size }
                            else st
                  match (if p < newp then free st p else some st) with
                  | none => none
                  | some st => some (st, some newp)
              else
                match malloc fuel st size with
                | none => none
                | some (st, none) => some ({ st with errno := ENOMEM }, none)
                | some (st, some newp) =>
                  let st := if newp ≠ p then
                              { st with mem := memcopy st.mem newp p original_size }
                            else st
                  match (if p < newp then free st p else some st) with
                  | none => none
                  | some st => some (st, some newp)
            else
              let newp := a + WSIZE
              let new_size := min original_size size
              let st := if !b.alloc then free_list_remove st a else st
              let st := if newp ≠ p then
                          { st with mem := memcopy st.mem newp p new_size }
                        else st
              let st := split st a size
              some (st, some newp)

/-! ## Observables -/

/-- The coalescability predicate of the source: header (or boundary-tag)
    word with neither the allocated bit nor the quick bit
    (`(hdr & 0x3) == 0`, as in `PREVUNCOAL`/`NEXTUNCOAL`). -/
def coalescableB (b : B) : Bool := !b.alloc && !b.quick

/-- Invariant 4 of the spec: no two physically adjacent blocks are both
    free and both coalescable. -/
def noAdjFree : List B → Bool
  | [] => true
  | [_] => true
  | x :: y :: t => !(coalescableB x && coalescableB y) && noAdjFree (y :: t)

/-- A quiescent already-initialized state with an empty heap, used to
    instantiate theorems at concrete inputs: prologue at address 8,
    `heapStart` 16, all 75 free lists empty. -/
def stEx : AState :=
  ⟨16, [], List.replicate LISTCOUNT [], 0, 100000, 24, fun _ => 0, true⟩

/-! ## Arithmetic facts about the embedded functions -/

theorem size_half_succ (s : Nat) (hs : 0 < s) : Nat.size s = Nat.size (s / 2) + 1 := by
  have e1 : s / 2 < 2 ^ Nat.size (s / 2) := Nat.lt_size_self _
  have h1 : Nat.size s ≤ Nat.size (s / 2) + 1 := by
    refine Nat.size_le.mpr ?_
    have : 2 ^ (Nat.size (s / 2) + 1) = 2 ^ Nat.size (s / 2) * 2 := by ring
    omega
  have h2 : Nat.size (s / 2) + 1 ≤ Nat.size s := by
    have hlt : Nat.size (s / 2) < Nat.size s := by
      refine Nat.lt_size.mpr ?_
      rcases Nat.eq_zero_or_pos (s / 2) with hz | hp
      · simp only [hz, Nat.size_zero, pow_zero]
        omega
      · have hszpos : 0 < Nat.size (s / 2) := Nat.size_pos.mpr hp
        have e2 : 2 ^ (Nat.size (s / 2) - 1) ≤ s / 2 :=
          Nat.lt_size.mp (by omega)
        have e3 : 2 ^ Nat.size (s / 2) = 2 ^ (Nat.size (s / 2) - 1) * 2 := by
          rw [← pow_succ]
          congr 1
          omega
        omega
    omega
  omega

theorem fliLoopAux_size : ∀ f s : Nat, s ≤ f → fliLoopAux f s = Nat.size s := by
  intro f
  induction f with
  | zero =>
    intro s hs
    have : s = 0 := by omega
    subst this
    rw [show fliLoopAux 0 0 = 0 from rfl, Nat.size_zero]
  | succ f ih =>
    intro s hs
    match s with
    | 0 => rw [show fliLoopAux (f + 1) 0 = 0 from rfl, Nat.size_zero]
    | s + 1 =>
      have step : fliLoopAux (f + 1) (s + 1) = fliLoopAux f ((s + 1) / 2) + 1 := rfl
      rw [step, ih ((s + 1) / 2) (by omega), ← size_half_succ (s + 1) (by omega)]

theorem fliLoop_eq_size (s : Nat) : fliLoop s = Nat.size s :=
  fliLoopAux_size s s le_rfl

theorem fliLoop_mono {s1 s2 : Nat} (h : s1 ≤ s2) : fliLoop s1 ≤ fliLoop s2 := by
  rw [fliLoop_eq_size, fliLoop_eq_size]
  exact Nat.size_le_size h

theorem shiftr3_eq (s : Nat) : s >>> 3 = s / 8 := by
  rw [Nat.shiftRight_eq_div_pow]

theorem shiftr10_eq (s : Nat) : s >>> 10 = s / 1024 := by
  rw [Nat.shiftRight_eq_div_pow]

/-- The segregated branch of `find_list_index` in closed form:
    `min (63 + l) 74` where `l` is the bit length of `s >> 10`. -/
theorem fli_big (s : Nat) (h : 512 ≤ s) :
    find_list_index s = ((min (63 + fliLoop (s >>> 10)) 74 : Nat) : Int) := by
  rw [find_list_index]
  have : ¬ s < 512 := by omega
  simp only [this, if_false]
  rcases Nat.lt_or_ge (fliLoop (s >>> 10)) 12 with hl | hl
  · simp only [hl, if_true]
    have : min (63 + fliLoop (s >>> 10)) 74 = 63 + fliLoop (s >>> 10) := by omega
    rw [this]
    push_cast
    ring
  · have : ¬ fliLoop (s >>> 10) < 12 := by omega
    simp only [this, if_false]
    have : min (63 + fliLoop (s >>> 10)) 74 = 74 := by omega
    rw [this]
    rfl

theorem fli_mono {s1 s2 : Nat} (h : s1 ≤ s2) :
    find_list_index s1 ≤ find_list_index s2 := by
  have hl : fliLoop (s1 >>> 10) ≤ fliLoop (s2 >>> 10) := by
    rw [shiftr10_eq, shiftr10_eq]
    exact fliLoop_mono (Nat.div_le_div_right h)
  rcases Nat.lt_or_ge s2 512 with h2 | h2
  · have h1 : s1 < 512 := by omega
    rw [find_list_index, find_list_index]
    simp only [h1, h2, if_true]
    have : s1 >>> 3 ≤ s2 >>> 3 := by
      rw [shiftr3_eq, shiftr3_eq]
      exact Nat.div_le_div_right h
    omega
  · rcases Nat.lt_or_ge s1 512 with h1 | h1
    · rw [find_list_index, find_list_index]
      simp only [h1, if_true]
      have hn2 : ¬ s2 < 512 := by omega
      simp only [hn2, if_false]
      have hle : s1 >>> 3 ≤ 63 := by
        rw [shiftr3_eq]
        omega
      simp only [LISTCOUNT]
      rcases Nat.lt_or_ge (fliLoop (s2 >>> 10)) 12 with hc | hc
      · simp only [hc, if_true]
        omega
      · have hc' : ¬ fliLoop (s2 >>> 10) < 12 := by omega
        simp only [hc', if_false]
        omega
    · rw [fli_big s1 h1, fli_big s2 h2]
      have : min (63 + fliLoop (s1 >>> 10)) 74 ≤ min (63 + fliLoop (s2 >>> 10)) 74 := by
        omega
      exact_mod_cast this

/-- `fliLoop t = k` characterised by powers of two (for `k ≥ 1`). -/
theorem fliLoop_eq_iff (t k : Nat) :
    fliLoop t = k + 1 ↔ 2 ^ k ≤ t ∧ t < 2 ^ (k + 1) := by
  rw [fliLoop_eq_size]
  constructor
  · intro h
    refine ⟨Nat.lt_size.mp (by omega), ?_⟩
    have := Nat.size_le (m := t) (n := k + 1)
    omega
  · rintro ⟨h1, h2⟩
    have ha : Nat.size t ≤ k + 1 := Nat.size_le.mpr h2
    have hb : k < Nat.size t := Nat.lt_size.mpr h1
    omega

/-- In the no-overflow regime the aligned block size lies at least 8
    bytes past `u + DSIZE`. -/
theorem reqSize_no_overflow {u : Nat} (h : u + 31 < U64) :
    u + DSIZE + 8 ≤ reqSize u := by
  have h16 : (u + DSIZE) % U64 = u + DSIZE := Nat.mod_eq_of_lt (by
    simp only [DSIZE, WSIZE] at *
    omega)
  rw [reqSize, BLOCKSIZE, h16, cALIGN]
  have h31 : (u + DSIZE + (ALIGNMENT - 1)) % U64 = u + 31 := by
    rw [Nat.mod_eq_of_lt (by simp only [DSIZE, WSIZE, ALIGNMENT] at *; omega)]
    simp only [DSIZE, WSIZE, ALIGNMENT]
  rw [h31]
  have := Nat.mod_lt (u + 31) (y := 8) (by omega)
  simp only [DSIZE, WSIZE]
  have h8 : (u + 31) % 8 ≤ 7 := by omega
  omega

/-- In the overflow regime (`u + 31` wraps) the aligned value collapses to
    at most 24 bytes. -/
theorem reqSize_overflow {u : Nat} (hu : u < U64) (h : U64 ≤ u + 31) :
    reqSize u ≤ 24 := by
  rw [reqSize, BLOCKSIZE, cALIGN]
  have hU : (2:Nat) ^ 64 = U64 := rfl
  rcases Nat.lt_or_ge (u + DSIZE) U64 with h16 | h16
  · have e1 : (u + DSIZE) % U64 = u + DSIZE := Nat.mod_eq_of_lt h16
    rw [e1]
    have e2 : (u + DSIZE + (ALIGNMENT - 1)) % U64 = u + DSIZE + (ALIGNMENT - 1) - U64 := by
      rw [Nat.mod_eq_sub_mod (by simp only [DSIZE, WSIZE, ALIGNMENT] at *; omega)]
      refine Nat.mod_eq_of_lt ?_
      simp only [DSIZE, WSIZE, ALIGNMENT] at *
      omega
    rw [e2]
    simp only [DSIZE, WSIZE, ALIGNMENT] at *
    omega
  · have e1 : (u + DSIZE) % U64 = u + DSIZE - U64 := by
      rw [Nat.mod_eq_sub_mod h16]
      refine Nat.mod_eq_of_lt ?_
      simp only [DSIZE, WSIZE] at *
      omega
    have e2 : (u + DSIZE - U64 + (ALIGNMENT - 1)) % U64 = u + DSIZE - U64 + (ALIGNMENT - 1) := by
      refine Nat.mod_eq_of_lt ?_
      simp only [DSIZE, WSIZE, ALIGNMENT] at *
      omega
    rw [e1, e2]
    simp only [DSIZE, WSIZE, ALIGNMENT] at *
    omega

/-- The spec's overflow condition (`align(u + 2W) < u + 2W`) and the
    code's test (`size > ALIGN(BLOCKSIZE(size))`) agree on every
    `size_t` value. -/
theorem overflow_conditions_agree {u : Nat} (hu : u < U64) :
    reqSize u < u + DSIZE ↔ reqSize u < u := by
  rcases Nat.lt_or_ge (u + 31) U64 with h | h
  · have := reqSize_no_overflow h
    simp only [DSIZE, WSIZE] at *
    omega
  · have := reqSize_overflow hu h
    have h31 : U64 = 2 ^ 64 := rfl
    simp only [DSIZE, WSIZE] at *
    omega

theorem fliLoop_zero_iff (t : Nat) : fliLoop t = 0 ↔ t = 0 := by
  rw [fliLoop_eq_size, Nat.size_eq_zero]

/-- Which sizes land in bucket `63 + k` (for `k ≤ 10`): exactly
    `[2^(k+9), 2^(k+10))`, one octave BELOW what the spec asserts. -/
theorem fli_range (s k : Nat) (hs : 512 ≤ s) (hk : k ≤ 10) :
    find_list_index s = 63 + (k : Int) ↔ 2 ^ (k + 9) ≤ s ∧ s < 2 ^ (k + 10) := by
  rw [fli_big s hs]
  have hcast : (((min (63 + fliLoop (s >>> 10)) 74 : Nat) : Int) = 63 + (k : Int))
      ↔ fliLoop (s >>> 10) = k := by omega
  rw [hcast, shiftr10_eq]
  rcases Nat.eq_zero_or_pos k with rfl | hkpos
  · rw [fliLoop_zero_iff]
    norm_num
    omega
  · obtain ⟨m, rfl⟩ : ∃ m, k = m + 1 := ⟨k - 1, by omega⟩
    rw [fliLoop_eq_iff]
    have e1 : (2 : Nat) ^ (m + 1 + 9) = 2 ^ m * 1024 := by
      rw [show m + 1 + 9 = m + 10 from by omega, pow_add]
      norm_num
    have e2 : (2 : Nat) ^ (m + 1 + 10) = 2 ^ (m + 1) * 1024 := by
      rw [show m + 1 + 10 = m + 1 + 10 from rfl, pow_add]
      norm_num
    constructor
    · rintro ⟨h1, h2⟩
      refine ⟨?_, ?_⟩
      · rw [e1]
        calc 2 ^ m * 1024 ≤ s / 1024 * 1024 := Nat.mul_le_mul_right _ h1
          _ ≤ s := Nat.div_mul_le_self s 1024
      · rw [e2]
        exact (Nat.div_lt_iff_lt_mul (by norm_num : 0 < 1024)).mp h2
    · rintro ⟨h1, h2⟩
      refine ⟨?_, ?_⟩
      · exact (Nat.le_div_iff_mul_le (by norm_num : 0 < 1024)).mpr (by rw [← e1]; exact h1)
      · exact (Nat.div_lt_iff_lt_mul (by norm_num : 0 < 1024)).mpr (by rw [← e2]; exact h2)

/-- The last bucket (index 74) absorbs exactly the sizes `≥ 2^20`
    (1 MiB), not `≥ 2^22` as the spec asserts. -/
theorem fli_last (s : Nat) (hs : 512 ≤ s) :
    find_list_index s = 74 ↔ 2 ^ 20 ≤ s := by
  rw [fli_big s hs]
  have h1 : (((min (63 + fliLoop (s >>> 10)) 74 : Nat) : Int) = 74)
      ↔ 11 ≤ fliLoop (s >>> 10) := by omega
  rw [h1, shiftr10_eq, fliLoop_eq_size]
  have h2 : 11 ≤ Nat.size (s / 1024) ↔ 2 ^ 10 ≤ s / 1024 := Nat.lt_size
  rw [h2, Nat.le_div_iff_mul_le (by norm_num : 0 < 1024)]
  have e : (2 : Nat) ^ 10 * 1024 = 2 ^ 20 := by norm_num
  rw [e]

/-! ## Frame lemmas: no internal operation touches the payload memory
    (only calloc's `memset` and realloc's `memmove` do) -/

theorem mem_free_list_remove (st : AState) (a : Nat) :
    (free_list_remove st a).mem = st.mem := by
  rw [free_list_remove]
  split
  · rfl
  · split
    · rfl
    · rfl

theorem mem_free_list_insert (st : AState) (a : Nat) (u : Bool) :
    (free_list_insert st a u).mem = st.mem := by
  rw [free_list_insert]
  split
  · rfl
  · split
    · rfl
    · rfl

theorem mem_ite_flr (c : Prop) [Decidable c] (st : AState) (a : Nat) :
    (if c then free_list_remove st a else st).mem = st.mem := by
  split
  · exact mem_free_list_remove st a
  · rfl

theorem mem_coalesce {st st' : AState} {a a' : Nat}
    (h : coalesce st a = some (st', a')) : st'.mem = st.mem := by
  rw [coalesce] at h
  split at h
  · exact absurd h (by simp)
  · split at h
    · exact absurd h (by simp)
    · dsimp only at h
      repeat' split at h
      all_goals obtain rfl : _ = st' := congrArg Prod.fst (Option.some.inj h)
      all_goals first
        | rfl
        | simp only [mem_free_list_remove, mem_ite_flr]

theorem mem_split (st : AState) (a s : Nat) : (split st a s).mem = st.mem := by
  rw [split]
  split
  · rfl
  · split
    · rfl
    · dsimp only
      split
      · rw [mem_free_list_insert]
      · rfl

theorem mem_extend_heap (st : AState) (n : Nat) :
    (extend_heap st n).1.mem = st.mem := by
  rw [extend_heap]
  split
  · rfl
  · rfl

theorem mem_sweep : ∀ (fuel : Nat) {st : AState} {s : Nat} {st' : AState} {r : Option Nat},
    sweep fuel st s = some (st', r) → st'.mem = st.mem := by
  intro fuel
  induction fuel with
  | zero => intro st s st' r h; exact absurd h (by rw [sweep]; simp)
  | succ fuel ih =>
    intro st s st' r h
    rw [sweep] at h
    split at h
    · obtain rfl : st = st' := congrArg Prod.fst (Option.some.inj h)
      rfl
    · split at h
      · exact absurd h (by simp)
      · rename_i st1 a1 heq
        split at h
        · exact absurd h (by simp)
        · dsimp only at h
          repeat' split at h
          all_goals first
            | (obtain rfl : _ = st' := congrArg Prod.fst (Option.some.inj h)
               simp only [mem_free_list_remove]
               exact mem_coalesce heq)
            | (obtain rfl : _ = st' := congrArg Prod.fst (Option.some.inj h)
               exact mem_coalesce heq)
            | (rw [ih h, mem_free_list_insert]
               simp only [mem_free_list_remove]
               exact mem_coalesce heq)
            | (rw [ih h, mem_free_list_insert]
               exact mem_coalesce heq)

theorem mem_find_block {fuel : Nat} {st : AState} {s : Nat} {st' : AState} {r : Option Nat}
    (h : find_block fuel st s = some (st', r)) : st'.mem = st.mem := by
  rw [find_block] at h
  split at h
  · exact absurd h (by simp)
  · rename_i st1 a1 heq
    obtain rfl : st1 = st' := congrArg Prod.fst (Option.some.inj h)
    exact mem_sweep fuel heq
  · rename_i st1 heq
    obtain rfl : st1 = st' := congrArg Prod.fst (Option.some.inj h)
    exact mem_sweep fuel heq

theorem mem_malloc_init (st : AState) : (malloc_init st).1.mem = st.mem := by
  rw [malloc_init]
  split
  · rfl
  · dsimp only
    split
    · rfl
    · split
      · rfl
      · rfl

theorem mem_malloc_fin {st : AState} {a s : Nat} {st' : AState} {r : Option Nat}
    (h : malloc_fin st a s = some (st', r)) : st'.mem = st.mem := by
  rw [malloc_fin] at h
  split at h
  · exact absurd h (by simp)
  · obtain rfl : _ = st' := congrArg Prod.fst (Option.some.inj h)
    rw [mem_split, mem_ite_flr]

theorem mem_malloc_grow {st : AState} {s : Nat} {st' : AState} {r : Option Nat}
    (h : malloc_grow st s = some (st', r)) : st'.mem = st.mem := by
  rw [malloc_grow] at h
  split at h
  · rename_i lb hlast
    split at h
    · dsimp only at h
      split at h
      · rename_i st2 hext
        obtain rfl : st2 = st' := congrArg Prod.fst (Option.some.inj h)
        have h2 : (extend_heap st ((U64 + s - lb.size) % U64)).1.mem = st.mem :=
          mem_extend_heap st _
        rw [hext] at h2
        exact h2
      · rename_i st2 x hext
        have h2 : (extend_heap st ((U64 + s - lb.size) % U64)).1.mem = st.mem :=
          mem_extend_heap st _
        rw [hext] at h2
        have h3 := mem_malloc_fin h
        simp only [mem_free_list_remove] at h3
        exact h3.trans h2
    · split at h
      · rename_i st2 hext
        obtain rfl : st2 = st' := congrArg Prod.fst (Option.some.inj h)
        have h2 : (extend_heap st s).1.mem = st.mem := mem_extend_heap st s
        rw [hext] at h2
        exact h2
      · rename_i st2 x hext
        have h2 : (extend_heap st s).1.mem = st.mem := mem_extend_heap st s
        rw [hext] at h2
        exact (mem_malloc_fin h).trans h2
  · split at h
    · rename_i st2 hext
      obtain rfl : st2 = st' := congrArg Prod.fst (Option.some.inj h)
      have h2 : (extend_heap st s).1.mem = st.mem := mem_extend_heap st s
      rw [hext] at h2
      exact h2
    · rename_i st2 x hext
      have h2 : (extend_heap st s).1.mem = st.mem := mem_extend_heap st s
      rw [hext] at h2
      exact (mem_malloc_fin h).trans h2

theorem mem_malloc_core {fuel : Nat} {st : AState} {s : Nat} {st' : AState} {r : Option Nat}
    (h : malloc_core fuel st s = some (st', r)) : st'.mem = st.mem := by
  rw [malloc_core] at h
  split at h
  · exact absurd h (by simp)
  · rename_i st1 found heq
    have hfb : st1.mem = st.mem := mem_find_block heq
    split at h
    · exact (mem_malloc_fin h).trans hfb
    · exact (mem_malloc_grow h).trans hfb

theorem mem_malloc {fuel : Nat} {st : AState} {u : Nat} {st' : AState} {r : Option Nat}
    (h : malloc fuel st u = some (st', r)) : st'.mem = st.mem := by
  rw [malloc] at h
  split at h
  · rename_i st1 hinit
    obtain rfl : st1 = st' := congrArg Prod.fst (Option.some.inj h)
    have h2 : (malloc_init st).1.mem = st.mem := mem_malloc_init st
    rw [hinit] at h2
    exact h2
  · rename_i st1 hinit
    have h1 : st1.mem = st.mem := by
      have h2 : (malloc_init st).1.mem = st.mem := mem_malloc_init st
      rw [hinit] at h2
      exact h2
    split at h
    · obtain rfl : st1 = st' := congrArg Prod.fst (Option.some.inj h)
      exact h1
    · split at h
      · obtain rfl : _ = st' := congrArg Prod.fst (Option.some.inj h)
        exact h1
      · exact (mem_malloc_core h).trans h1

theorem mem_free {st : AState} {p : Nat} {st' : AState}
    (h : free st p = some st') : st'.mem = st.mem := by
  rw [free] at h
  split at h
  · exact congrArg AState.mem (Option.some.inj h).symm
  · split at h
    · exact absurd h (by simp)
    · rename_i st1 a1 heq
      obtain rfl : _ = st' := Option.some.inj h
      rw [mem_free_list_insert]
      exact mem_coalesce heq

theorem mem_reallocLoop : ∀ (fuel : Nat) {st : AState} {a : Nat} {st' : AState} {a' : Nat},
    reallocLoop fuel st a = some (st', a') → st'.mem = st.mem := by
  intro fuel
  induction fuel with
  | zero => intro st a st' a' h; exact absurd h (by rw [reallocLoop]; simp)
  | succ fuel ih =>
    intro st a st' a' h
    rw [reallocLoop] at h
    split at h
    · exact absurd h (by simp)
    · rename_i st1 a1 heq
      split at h
      · exact (ih h).trans (mem_coalesce heq)
      · obtain rfl : st1 = st' := congrArg Prod.fst (Option.some.inj h)
        exact mem_coalesce heq

/-! ## Claim C4 (corrected) -/

/-- **C4, counterexample.**  The claim's second half asserts that index
    `63 + k` holds exactly the block sizes in `[2^(k+10), 2^(k+11))` for
    `k = 0..11`; for `k = 0` that would place size 1024 (which lies in
    `[2^10, 2^11)`) at index 63, but `find_list_index 1024 = 64`. -/
theorem C4_counterexample :
    (2 ^ (0 + 10) ≤ 1024 ∧ 1024 < 2 ^ (0 + 11)) ∧
      (find_list_index 1024 = 64 ∧ find_list_index 1024 ≠ 63 + 0) := by
  decide

/-- **C4, amended.**  For every block size `s ≥ 512`,
    `find_list_index s = min (63 + k) 74`, where `k` is the one-indexed
    position of the highest set bit of `s >> 10` (0 when `s >> 10 = 0`);
    equivalently, index `63 + k` holds exactly the block sizes in
    `[2^(k+9), 2^(k+10))` for `k = 0..10`, and the last index (74)
    absorbs every size `≥ 2^20` bytes. -/
theorem C4_large_size_classes (s : Nat) (hs : 512 ≤ s) :
    find_list_index s = ((min (63 + fliLoop (s >>> 10)) 74 : Nat) : Int)
    ∧ (∀ k : Nat, k ≤ 10 →
        (find_list_index s = 63 + (k : Int) ↔ 2 ^ (k + 9) ≤ s ∧ s < 2 ^ (k + 10)))
    ∧ (find_list_index s = 74 ↔ 2 ^ 20 ≤ s) :=
  ⟨fli_big s hs, fun k hk => fli_range s k hs hk, fli_last s hs⟩

/-- **C4, witness** at `s = 4096 ∈ [2^11, 2^12)`, bucket `63 + 2`. -/
theorem C4_witness :
    (512 ≤ 4096)
    ∧ find_list_index 4096 = ((min (63 + fliLoop (4096 >>> 10)) 74 : Nat) : Int)
    ∧ (find_list_index 4096 = 63 + (2 : Int) ↔ 2 ^ (2 + 9) ≤ 4096 ∧ 4096 < 2 ^ (2 + 10))
    ∧ (find_list_index 4096 = 74 ↔ 2 ^ 20 ≤ 4096) :=
  ⟨by norm_num,
   (C4_large_size_classes 4096 (by norm_num)).1,
   (C4_large_size_classes 4096 (by norm_num)).2.1 2 (by norm_num),
   (C4_large_size_classes 4096 (by norm_num)).2.2⟩

/-! ## Claim C10 (confirmed) -/

/-- **C10.**  `find_list_index` is monotone on block sizes (stated with
    the claim's hypotheses — sizes that are multiples of the alignment
    quantum and at least the minimum block size — though the proof needs
    neither): the segregated scan, which starts at `find_list_index s`
    and moves toward higher indices, therefore only meets buckets whose
    size classes are at least as large as the request's. -/
theorem C10_find_list_index_monotone (s1 s2 : Nat)
    (hd1 : ALIGNMENT ∣ s1) (hd2 : ALIGNMENT ∣ s2)
    (hm1 : MINBLOCK ≤ s1) (hm2 : MINBLOCK ≤ s2) (h : s1 ≤ s2) :
    find_list_index s1 ≤ find_list_index s2 :=
  fli_mono h

/-- **C10, witness** at `s1 = 32`, `s2 = 4096`. -/
theorem C10_witness :
    (ALIGNMENT ∣ 32) ∧ (ALIGNMENT ∣ 4096) ∧ (MINBLOCK ≤ 32) ∧ (MINBLOCK ≤ 4096)
    ∧ (32 ≤ 4096) ∧ find_list_index 32 ≤ find_list_index 4096 :=
  ⟨by decide, by decide, by decide, by decide, by decide,
   C10_find_list_index_monotone 32 4096 (by decide) (by decide) (by decide)
     (by decide) (by decide)⟩

/-! ## Claim C1 (code bug) -/

/-- **C1.**  The alignment contract fails on the code: `ALIGN` masks
    with `~0x7` (8 bytes) although `ALIGNMENT = DSIZE = 16`, so block
    sizes are only 8-byte multiples.  Starting from a fresh process with
    the break at 0 (any 8-aligned break behaves alike), two successive
    `allocate(9)` calls return payload pointers 624 and 664; they differ
    by the 40-byte block size, so they cannot both be multiples of
    `A = 16`, and indeed `664 % 16 = 8`.  This contradicts the code's
    own comments (`/* rounds up to the nearest multiple of ALIGNMENT */`
    and the file header's alignment promise). -/
theorem C1_payload_not_A_aligned :
    ((malloc 10 (fresh 0 100000) 9).bind fun r1 =>
      (malloc 10 r1.1 9).map fun r2 => (r1.2, r2.2)) = some (some 624, some 664)
    ∧ 664 % ALIGNMENT = 8 ∧ reqSize 9 = 40 ∧ ¬ ALIGNMENT ∣ 40 := by
  refine ⟨rfl, by decide, by decide, by decide⟩

/-! ## Claim C6 (corrected) -/

/-- **C6, counterexample.**  On the very first call, `allocate(0)` does
    cause heap growth (the one-time initialization: the free-list table
    plus the sentinel region move the break from 0 to 648), and it
    returns null with `errno` left untouched at 0 — the out-of-memory
    indicator (`ENOMEM = 12`) is NOT set, contrary to the claim and to
    the spec's interface table. -/
theorem C6_counterexample :
    (malloc 10 (fresh 0 100000) 0).map (fun r => (r.1.errno, r.1.brk, r.2))
      = some (0, 648, none)
    ∧ (fresh 0 100000).brk = 0 ∧ (0 : Nat) ≠ ENOMEM := by
  exact ⟨rfl, rfl, by decide⟩

/-- **C6, amended.**  Once the allocator is initialized, `allocate(0)`
    returns null and changes nothing at all — no heap growth, no free
    list change, and `errno` untouched (the out-of-memory indicator is
    not set); the very first call additionally performs the one-time
    initialization growth. -/
theorem C6_alloc_zero_is_noop (st : AState) (fuel : Nat) (h : st.inited = true) :
    malloc fuel st 0 = some (st, none) := by
  rw [malloc, malloc_init]
  simp [h]

/-- **C6, witness** on the quiescent example state. -/
theorem C6_witness : stEx.inited = true ∧ malloc 10 stEx 0 = some (stEx, none) :=
  ⟨rfl, C6_alloc_zero_is_noop stEx 10 rfl⟩

/-! ## Claim C8 (confirmed) -/

/-- **C8.**  `malloc` computes the required block size as
    `s = ALIGN(BLOCKSIZE(u)) = align(u + 2·W)` (first conjunct, by
    definition), and whenever the aligned value is smaller than
    `u + 2·W` — a condition that coincides with the code's test
    `size > ALIGN(BLOCKSIZE(size))` on every `size_t` value
    (`overflow_conditions_agree`) — it fails with null and
    `errno = ENOMEM`, leaving everything else (in particular every free
    list) unchanged. -/
theorem C8_overflow_fails (st : AState) (fuel u : Nat)
    (hin : st.inited = true) (hu : 0 < u) (huU : u < U64)
    (hov : reqSize u < u + 2 * WSIZE) :
    reqSize u = cALIGN ((u + 2 * WSIZE) % U64)
    ∧ malloc fuel st u = some ({ st with errno := ENOMEM }, none)
    ∧ ({ st with errno := ENOMEM } : AState).freeLists = st.freeLists := by
  have hlt : reqSize u < u := (overflow_conditions_agree huU).mp hov
  refine ⟨rfl, ?_, rfl⟩
  rw [malloc, malloc_init]
  simp [hin, Nat.pos_iff_ne_zero.mp hu, hlt]

/-- **C8, witness** at `u = 2^64 - 20` (so `u + 2·W` wraps). -/
theorem C8_witness :
    (stEx.inited = true) ∧ (0 < U64 - 20) ∧ (U64 - 20 < U64)
    ∧ (reqSize (U64 - 20) < (U64 - 20) + 2 * WSIZE)
    ∧ malloc 10 stEx (U64 - 20) = some ({ stEx with errno := ENOMEM }, none) :=
  ⟨rfl, by decide, by decide, by decide,
   (C8_overflow_fails stEx 10 (U64 - 20) rfl (by decide) (by decide) (by decide)).2.1⟩

/-! ## Claim C3 (code bug) -/

/-- **C3.**  `realloc(p, 0)` is specified to free `p` and return null
    with no further work; the source instead calls `free(ptr)` and then
    falls through (`if (size == 0) free(ptr);` has no `return`),
    continuing to operate on the freed block.  Concretely: allocate one
    24-byte block (`p = 624`, block size 48), then `realloc(p, 0)`.  The
    run returns `some 624` — NOT null — and the block ends up allocated
    again (the shrink path takes it back off the unsorted list and
    re-marks it), with all 75 free lists empty. -/
theorem C3_resize_zero_continues :
    ((malloc 10 (fresh 0 100000) 24).bind fun r1 =>
      match r1.2 with
      | some p => (realloc 10 r1.1 p 0).map fun r2 =>
          (r2.2, r2.1.blocks, r2.1.freeLists)
      | none => none)
      = some (some 624, [⟨48, true, false⟩], List.replicate LISTCOUNT []) := by
  decide

/-! ## Address / index infrastructure -/

theorem sumsz_nil : sumsz [] = 0 := rfl

theorem sumsz_cons (b : B) (t : List B) : sumsz (b :: t) = b.size + sumsz t := by
  simp [sumsz]

theorem sumsz_append (xs ys : List B) : sumsz (xs ++ ys) = sumsz xs + sumsz ys := by
  simp [sumsz]

theorem idxAt_append (base : Nat) (xs ys : List B) (a : Nat) :
    idxAt base (xs ++ ys) a =
      match idxAt base xs a with
      | some i => some i
      | none => (idxAt (base + sumsz xs) ys a).map (· + xs.length) := by
  induction xs generalizing base with
  | nil =>
    simp only [List.nil_append, idxAt, sumsz_nil, Nat.add_zero, List.length_nil]
    cases idxAt base ys a <;> simp
  | cons b t ih =>
    simp only [List.cons_append, idxAt]
    by_cases hab : a = base
    · simp [hab]
    · simp only [hab, if_false, List.append_eq]
      rw [ih]
      cases hidx : idxAt (base + b.size) t a
      · simp only []
        rw [sumsz_cons]
        have : base + (b.size + sumsz t) = base + b.size + sumsz t := by omega
        rw [← this]
        cases idxAt (base + (b.size + sumsz t)) ys a <;>
          simp [List.length_cons] <;> omega
      · simp

theorem idxAt_some {base : Nat} {bs : List B} {a : Nat} {i : Nat}
    (h : idxAt base bs a = some i) :
    i < bs.length ∧ a = base + sumsz (bs.take i) := by
  induction bs generalizing base i with
  | nil => simp [idxAt] at h
  | cons b t ih =>
    rw [idxAt] at h
    by_cases hab : a = base
    · simp only [hab, if_true, Option.some.injEq] at h
      subst h
      simp [hab, sumsz_nil]
    · simp only [hab, if_false, Option.map_eq_some'] at h
      obtain ⟨j, hj, rfl⟩ := h
      obtain ⟨h1, h2⟩ := ih hj
      refine ⟨by simpa using Nat.succ_lt_succ h1, ?_⟩
      rw [List.take_succ_cons, sumsz_cons]
      omega

theorem idxAt_of_addr {bs : List B} (hpos : ∀ b ∈ bs, 0 < b.size) :
    ∀ (base : Nat) (i : Nat), i < bs.length →
      idxAt base bs (base + sumsz (bs.take i)) = some i := by
  induction bs with
  | nil => intro base i hi; simp at hi
  | cons b t ih =>
    intro base i hi
    cases i with
    | zero => simp [idxAt, sumsz_nil]
    | succ j =>
      rw [idxAt]
      have hb : 0 < b.size := hpos b (by simp)
      rw [List.take_succ_cons, sumsz_cons]
      have hne : base + (b.size + sumsz (t.take j)) ≠ base := by omega
      rw [if_neg hne]
      have he : base + (b.size + sumsz (t.take j)) = (base + b.size) + sumsz (t.take j) := by
        omega
      rw [he, ih (fun x hx => hpos x (by simp [hx])) (base + b.size) j (by simpa using hi)]
      rfl

/-- `idxAt` is insensitive to the blocks' flags: it only reads sizes. -/
theorem idxAt_congr_sizes : ∀ {bs cs : List B}, bs.map B.size = cs.map B.size →
    ∀ (base a : Nat), idxAt base bs a = idxAt base cs a := by
  intro bs
  induction bs with
  | nil =>
    intro cs h base a
    cases cs
    · rfl
    · simp at h
  | cons b t ih =>
    intro cs h base a
    cases cs with
    | nil => simp at h
    | cons c cs' =>
      simp only [List.map_cons, List.cons.injEq] at h
      rw [idxAt, idxAt, h.1, ih h.2]

theorem idxAt_set_flags (b' : B) {bs : List B} {i : Nat} {b : B}
    (hb : bs[i]? = some b) (hsz : b'.size = b.size) (base a : Nat) :
    idxAt base (bs.set i b') a = idxAt base bs a := by
  refine idxAt_congr_sizes ?_ base a
  rw [List.map_set, hsz]
  refine (List.ext_getElem? fun n => ?_).symm
  rw [List.getElem?_set]
  split
  · rename_i hn
    subst hn
    have hi : i < bs.length := by
      by_contra hlen
      rw [List.getElem?_eq_none (by omega)] at hb
      exact absurd hb (by simp)
    rw [if_pos (by simpa using hi), List.getElem?_map, hb]
    rfl
  · rfl

theorem sumsz_take_lt {bs : List B} {i : Nat} (hpos : ∀ b ∈ bs, 0 < b.size)
    (hi : i < bs.length) : sumsz (bs.take i) < sumsz bs := by
  conv_rhs => rw [← List.take_append_drop i bs]
  rw [sumsz_append]
  rcases hd : bs.drop i with _ | ⟨c, t⟩
  · rw [List.drop_eq_nil_iff] at hd
    omega
  · have hc : c ∈ bs := List.drop_subset i bs (by rw [hd]; exact List.mem_cons_self c t)
    have := hpos c hc
    rw [sumsz_cons]
    omega

theorem sumsz_take_append_ge (xs ys : List B) (j : Nat) (h : xs.length ≤ j) :
    sumsz ((xs ++ ys).take j) = sumsz xs + sumsz (ys.take (j - xs.length)) := by
  have h2 : j = xs.length + (j - xs.length) := by omega
  conv_lhs => rw [h2]
  rw [List.take_append, sumsz_append]

theorem sumsz_take_append_le (xs ys : List B) (j : Nat) (h : j ≤ xs.length) :
    sumsz ((xs ++ ys).take j) = sumsz (xs.take j) := by
  rw [List.take_append_of_le_length h]

/-- Replacing a contiguous non-empty run `mid` of the block sequence by
    a run `mid'` of blocks with the same total size (coalescing replaces
    two or three blocks by one, splitting one by two) leaves the
    location of every block outside the run intact up to the index
    shift. -/
theorem idxAt_replace (mid' : List B) {xs mid zs : List B} {base a : Nat} {j : Nat}
    (hS : sumsz mid' = sumsz mid) (hmid : mid ≠ [])
    (hpos' : ∀ b ∈ mid', 0 < b.size)
    (h : idxAt base (xs ++ (mid ++ zs)) a = some j) :
    (j < xs.length →
       idxAt base (xs ++ (mid' ++ zs)) a = some j
       ∧ (xs ++ (mid' ++ zs))[j]? = (xs ++ (mid ++ zs))[j]?)
    ∧ (xs.length + mid.length ≤ j →
       idxAt base (xs ++ (mid' ++ zs)) a = some (j - mid.length + mid'.length)
       ∧ (xs ++ (mid' ++ zs))[j - mid.length + mid'.length]? = (xs ++ (mid ++ zs))[j]?) := by
  rw [idxAt_append] at h
  constructor
  · intro hj
    rcases hx : idxAt base xs a with _ | i
    · rw [hx] at h
      simp only [] at h
      obtain ⟨k, hk, hjk⟩ := Option.map_eq_some'.mp h
      omega
    · rw [hx] at h
      simp only [Option.some.injEq] at h
      subst h
      refine ⟨by rw [idxAt_append, hx], ?_⟩
      rw [@List.getElem?_append _ xs (mid' ++ zs) _, if_pos hj,
         @List.getElem?_append _ xs (mid ++ zs) _, if_pos hj]
  · intro hj
    rcases hx : idxAt base xs a with _ | i
    · rw [hx] at h
      simp only [] at h
      obtain ⟨k, hk, hjk⟩ := Option.map_eq_some'.mp h
      rw [idxAt_append] at hk
      rcases hm : idxAt (base + sumsz xs) mid a with _ | i2
      · rw [hm] at hk
        simp only [] at hk
        obtain ⟨m, hmz, hkm⟩ := Option.map_eq_some'.mp hk
        have hnotmid' : idxAt (base + sumsz xs) mid' a = none := by
          rcases hy : idxAt (base + sumsz xs) mid' a with _ | i3
          · rfl
          · obtain ⟨h3len, h3addr⟩ := idxAt_some hy
            obtain ⟨hmlen, hmaddr⟩ := idxAt_some hmz
            have hlt : sumsz (mid'.take i3) < sumsz mid' := sumsz_take_lt hpos' h3len
            omega
        have hgoal : idxAt base (xs ++ (mid' ++ zs)) a
            = some (m + mid'.length + xs.length) := by
          rw [idxAt_append, hx]
          simp only []
          rw [idxAt_append, hnotmid', hS]
          simp only []
          rw [hmz]
          rfl
        have hidx : j - mid.length + mid'.length = m + mid'.length + xs.length := by
          omega
        refine ⟨by rw [hidx]; exact hgoal, ?_⟩
        rw [hidx]
        rw [@List.getElem?_append _ xs (mid' ++ zs) _, if_neg (by omega)]
        rw [@List.getElem?_append _ mid' zs _, if_neg (by omega)]
        rw [@List.getElem?_append _ xs (mid ++ zs) _, if_neg (by omega)]
        rw [@List.getElem?_append _ mid zs _, if_neg (by omega)]
        congr 1
        omega
      · rw [hm] at hk
        simp only [Option.some.injEq] at hk
        obtain ⟨hmlen, _⟩ := idxAt_some hm
        omega
    · rw [hx] at h
      simp only [Option.some.injEq] at h
      obtain ⟨hilen, _⟩ := idxAt_some hx
      have : mid.length ≠ 0 := by
        intro hc
        exact hmid (List.length_eq_zero.mp hc)
      omega

/-! ## Well-formedness -/

/-- Block sanity: a positive, 8-byte-multiple size and no quick bit (no
    code path ever calls MARKQUICK). -/
def blockOK (b : B) : Bool := decide (0 < b.size) && decide (8 ∣ b.size) && !b.quick

/-- Validity of one free-list entry `a` on list `ix`: it addresses a
    block, the block is free, and on the segregated lists (`ix ≥ 1`) the
    block's size maps to exactly this list (spec invariant 7). -/
def entryOK (st : AState) (ix a : Nat) : Bool :=
  match blockAt st a with
  | none => false
  | some b => !b.alloc && (ix == 0 || (find_list_index b.size).toNat == ix)

/-- Well-formed allocator state: the free-list table has its 75 heads,
    every block has a sane header, and every free-list entry is valid. -/
def WF (st : AState) : Prop :=
  st.freeLists.length = LISTCOUNT
  ∧ (∀ b ∈ st.blocks, blockOK b = true)
  ∧ (∀ ix, ix < LISTCOUNT → ∀ a ∈ st.freeLists.getD ix [], entryOK st ix a = true)
  ∧ st.inited = true

theorem fli_toNat_lt (s : Nat) : (find_list_index s).toNat < LISTCOUNT := by
  rw [find_list_index]
  split
  · rename_i h
    have h2 : s >>> 3 ≤ 63 := by
      rw [shiftr3_eq]
      omega
    simp only [LISTCOUNT]
    omega
  · dsimp only
    split
    · rename_i h
      simp only [LISTCOUNT]
      omega
    · simp only [LISTCOUNT]
      omega

theorem getD_eq_getElem? {α : Type} (ls : List α) (ix : Nat) (d : α) :
    ls.getD ix d = (ls[ix]?).getD d := by
  rw [List.getD_eq_getElem?_getD]

theorem getD_listsErase (ls : List (List Nat)) (ix a : Nat) :
    (listsErase ls a).getD ix [] = (ls.getD ix []).filter (· ≠ a) := by
  rw [listsErase, getD_eq_getElem?, getD_eq_getElem?, List.getElem?_map]
  cases ls[ix]? <;> simp

theorem getD_set (ls : List (List Nat)) (ix ix' : Nat) (v : List Nat) :
    (ls.set ix v).getD ix' [] =
      if ix = ix' ∧ ix < ls.length then v else ls.getD ix' [] := by
  rw [getD_eq_getElem?, getD_eq_getElem?, List.getElem?_set]
  split
  · rename_i hix
    subst hix
    split
    · rename_i hlt
      simp [hlt]
    · rename_i hlt
      rw [if_neg (by intro hc; exact hlt hc.2)]
      rw [List.getElem?_eq_none (by omega)]
  · rename_i hix
    rw [if_neg (by intro hc; exact hix hc.1)]

/-- Addresses determine indices uniquely. -/
theorem idxAt_inj {base : Nat} {bs : List B} {a a' i : Nat}
    (h1 : idxAt base bs a = some i) (h2 : idxAt base bs a' = some i) : a = a' := by
  obtain ⟨_, e1⟩ := idxAt_some h1
  obtain ⟨_, e2⟩ := idxAt_some h2
  omega

theorem blockAt_def (st : AState) (a : Nat) :
    blockAt st a = (idxAt st.heapStart st.blocks a).bind (fun i => st.blocks[i]?) := by
  rw [blockAt]
  cases idxAt st.heapStart st.blocks a <;> rfl

/-- `entryOK` unfolded to a logical statement. -/
theorem entryOK_iff {st : AState} {ix a : Nat} :
    entryOK st ix a = true ↔
      ∃ i b, idxAt st.heapStart st.blocks a = some i ∧ st.blocks[i]? = some b
        ∧ b.alloc = false ∧ (ix = 0 ∨ (find_list_index b.size).toNat = ix) := by
  rw [entryOK, blockAt_def]
  rcases h1 : idxAt st.heapStart st.blocks a with _ | i
  · simp
  · rcases h2 : st.blocks[i]? with _ | b
    · simp [h2]
    · simp only [Option.some_bind, h2, Bool.and_eq_true, Bool.not_eq_true',
        Bool.or_eq_true, beq_iff_eq]
      constructor
      · rintro ⟨ha, hor⟩
        exact ⟨i, b, rfl, h2, ha, hor⟩
      · rintro ⟨i', b', hi', hb', ha, hor⟩
        obtain rfl : i = i' := Option.some.inj hi'
        rw [h2] at hb'
        obtain rfl : b = b' := Option.some.inj hb'
        exact ⟨ha, hor⟩

/-- `free_list_remove` in the located case. -/
theorem flr_eq {st : AState} {a i : Nat} {b : B}
    (hi : idxAt st.heapStart st.blocks a = some i) (hb : st.blocks[i]? = some b) :
    free_list_remove st a =
      { st with freeLists := listsErase st.freeLists a,
                blocks := st.blocks.set i { b with alloc := true, quick := false } } := by
  rw [free_list_remove, hi]
  dsimp only
  rw [hb]

/-- `free_list_insert` in the located case. -/
theorem fli_eq {st : AState} {a i : Nat} {b : B} (u : Bool)
    (hi : idxAt st.heapStart st.blocks a = some i) (hb : st.blocks[i]? = some b) :
    free_list_insert st a u =
      { st with blocks := st.blocks.set i { b with alloc := false, quick := false },
                freeLists := st.freeLists.set (if u then 0 else (find_list_index b.size).toNat)
                  (a :: st.freeLists.getD (if u then 0 else (find_list_index b.size).toNat) []) } := by
  rw [free_list_insert, hi]
  dsimp only
  rw [hb]

theorem blockOK_of_set {bs : List B} {i : Nat} {b' : B}
    (hOK : ∀ b ∈ bs, blockOK b = true) (hb' : blockOK b' = true) :
    ∀ b ∈ bs.set i b', blockOK b = true := by
  intro x hx
  rcases List.mem_or_eq_of_mem_set hx with hx' | rfl
  · exact hOK x hx'
  · exact hb'

theorem mem_of_getElem?_eq {α : Type} {bs : List α} {i : Nat} {b : α}
    (hb : bs[i]? = some b) : b ∈ bs := by
  obtain ⟨hlt, hget⟩ := List.getElem?_eq_some_iff.mp hb
  exact hget ▸ List.getElem_mem hlt

/-- Flag-only updates keep `blockOK` (size unchanged, quick cleared). -/
theorem blockOK_flags {bs : List B} {i : Nat} {b : B} (al : Bool)
    (hOK : ∀ x ∈ bs, blockOK x = true) (hb : bs[i]? = some b) :
    ∀ x ∈ bs.set i { b with alloc := al, quick := false }, blockOK x = true := by
  refine blockOK_of_set hOK ?_
  have := hOK b (mem_of_getElem?_eq hb)
  simp only [blockOK, Bool.and_eq_true, decide_eq_true_eq] at this ⊢
  exact ⟨⟨this.1.1, this.1.2⟩, rfl⟩

/-! ### The adjacency invariant, index-wise -/

theorem noAdjFree_iff : ∀ (bs : List B), noAdjFree bs = true ↔
    ∀ j x y, bs[j]? = some x → bs[j + 1]? = some y →
      ¬(coalescableB x = true ∧ coalescableB y = true) := by
  intro bs
  induction bs with
  | nil => simp [noAdjFree]
  | cons b t ih =>
    cases t with
    | nil =>
      simp only [noAdjFree, true_iff]
      intro j x y hx hy
      rcases j with _ | j
      · simp at hy
      · simp at hx
    | cons c t2 =>
      rw [noAdjFree]
      rw [Bool.and_eq_true, ih]
      constructor
      · rintro ⟨hpair, hrest⟩ j x y hx hy
        rcases j with _ | j
        · simp only [List.getElem?_cons_zero, Option.some.injEq] at hx
          simp only [List.getElem?_cons_succ, List.getElem?_cons_zero,
            Option.some.injEq] at hy
          subst hx
          subst hy
          intro ⟨h1, h2⟩
          rw [h1, h2] at hpair
          simp at hpair
        · simp only [List.getElem?_cons_succ] at hx
          refine hrest j x y hx ?_
          simp only [List.getElem?_cons_succ]
          simpa using hy
      · intro hall
        refine ⟨?_, ?_⟩
        · have := hall 0 b c (by simp) (by simp)
          by_cases h1 : coalescableB b = true
          · by_cases h2 : coalescableB c = true
            · exact absurd ⟨h1, h2⟩ this
            · simp only [Bool.not_eq_true] at h2
              rw [h2]
              simp
          · simp only [Bool.not_eq_true] at h1
            rw [h1]
            simp
        · intro j x y hx hy
          exact hall (j + 1) x y (by simpa using hx) (by simpa using hy)

theorem noAdjFree_take {bs : List B} (k : Nat) (h : noAdjFree bs = true) :
    noAdjFree (bs.take k) = true := by
  rw [noAdjFree_iff] at h ⊢
  intro j x y hx hy
  rw [List.getElem?_take] at hx hy
  split at hx
  · split at hy
    · exact h j x y hx hy
    · exact absurd hy (by simp)
  · exact absurd hx (by simp)

theorem noAdjFree_drop {bs : List B} (k : Nat) (h : noAdjFree bs = true) :
    noAdjFree (bs.drop k) = true := by
  rw [noAdjFree_iff] at h ⊢
  intro j x y hx hy
  rw [List.getElem?_drop] at hx hy
  refine h (k + j) x y hx ?_
  rw [show k + j + 1 = k + (j + 1) from by omega]
  exact hy

/-- Appending a non-coalescable block between two invariant-satisfying
    runs keeps the invariant. -/
theorem noAdjFree_glue {X Z : List B} {m : B} (hm : coalescableB m = false)
    (hX : noAdjFree X = true) (hZ : noAdjFree Z = true) :
    noAdjFree (X ++ m :: Z) = true := by
  rw [noAdjFree_iff]
  rw [noAdjFree_iff] at hX hZ
  intro j x y hx hy
  rw [List.getElem?_append] at hx hy
  split at hx
  · rename_i hjX
    split at hy
    · exact hX j x y hx hy
    · -- y is m (j + 1 = X.length)
      rename_i hjy
      have : j + 1 = X.length := by omega
      rw [this, Nat.sub_self] at hy
      simp only [List.getElem?_cons_zero, Option.some.injEq] at hy
      subst hy
      intro ⟨_, h2⟩
      rw [hm] at h2
      exact absurd h2 (by simp)
  · rename_i hjX
    split at hy
    · omega
    · rcases Nat.lt_or_ge j X.length with hc | hc
      · omega
      · rcases Nat.eq_or_lt_of_le hc with rfl | hgt
        · rw [Nat.sub_self] at hx
          simp only [List.getElem?_cons_zero, Option.some.injEq] at hx
          subst hx
          intro ⟨h1, _⟩
          rw [hm] at h1
          exact absurd h1 (by simp)
        · have e1 : j - X.length = (j - X.length - 1) + 1 := by omega
          rw [e1] at hx
          simp only [List.getElem?_cons_succ] at hx
          have e2 : j + 1 - X.length = (j - X.length - 1) + 1 + 1 := by omega
          rw [e2] at hy
          simp only [List.getElem?_cons_succ] at hy
          exact hZ _ x y hx hy

/-! ### More take/drop/set bookkeeping -/

theorem sumsz_take_succ {bs : List B} {i : Nat} {x : B} (hx : bs[i]? = some x) :
    sumsz (bs.take (i + 1)) = sumsz (bs.take i) + x.size := by
  rw [List.take_succ, hx, sumsz_append]
  simp [sumsz]

theorem take_set_of_le (bs : List B) (j lo : Nat) (x : B) (h : lo ≤ j) :
    (bs.set j x).take lo = bs.take lo := by
  refine List.ext_getElem? fun n => ?_
  rw [List.getElem?_take, List.getElem?_take]
  split
  · rw [List.getElem?_set, if_neg (by omega)]
  · rfl

theorem drop_set_of_lt (bs : List B) (j k : Nat) (x : B) (h : j < k) :
    (bs.set j x).drop k = bs.drop k := by
  refine List.ext_getElem? fun n => ?_
  rw [List.getElem?_drop, List.getElem?_drop, List.getElem?_set, if_neg (by omega)]

theorem listsErase_length (ls : List (List Nat)) (a : Nat) :
    (listsErase ls a).length = ls.length := by
  simp [listsErase]

theorem mem_listsErase {ls : List (List Nat)} {a x ix : Nat}
    (h : x ∈ (listsErase ls a).getD ix []) :
    x ∈ ls.getD ix [] ∧ x ≠ a := by
  rw [getD_listsErase, List.mem_filter] at h
  exact ⟨h.1, by simpa using h.2⟩

/-- The blocks produced by the coalescing surgery, with every location
    and invariant fact its callers need.  `rk` is the set (as a list) of
    addresses spliced out of the free lists; `ls'` is the new table. -/
theorem coalesce_surgery (st : AState) (lo hi : Nat) (merged : B) (a' : Nat)
    (rk : List Nat) (ls' : List (List Nat))
    (hw : WF st)
    (hlohi : lo ≤ hi) (hhi : hi < st.blocks.length)
    (hsum : merged.size = sumsz ((st.blocks.drop lo).take (hi + 1 - lo)))
    (hmOK : blockOK merged = true)
    (hmal : merged.alloc = true)
    (ha' : a' = st.heapStart + sumsz (st.blocks.take lo))
    (hlen' : ls'.length = st.freeLists.length)
    (hmem' : ∀ ix a'', a'' ∈ ls'.getD ix [] →
        a'' ∈ st.freeLists.getD ix [] ∧ a'' ∉ rk)
    (hremoved : ∀ j a'' bj, lo ≤ j → j ≤ hi →
        idxAt st.heapStart st.blocks a'' = some j →
        st.blocks[j]? = some bj → bj.alloc = false → a'' ∈ rk) :
    WF { st with blocks := st.blocks.take lo ++ merged :: st.blocks.drop (hi + 1),
                 freeLists := ls' }
    ∧ idxAt st.heapStart (st.blocks.take lo ++ merged :: st.blocks.drop (hi + 1)) a'
        = some lo
    ∧ (st.blocks.take lo ++ merged :: st.blocks.drop (hi + 1))[lo]? = some merged
    ∧ (∀ n, n < lo →
        (st.blocks.take lo ++ merged :: st.blocks.drop (hi + 1))[n]? = st.blocks[n]?)
    ∧ (st.blocks.take lo ++ merged :: st.blocks.drop (hi + 1))[lo + 1]?
        = st.blocks[hi + 1]?
    ∧ (noAdjFree st.blocks = true →
        noAdjFree (st.blocks.take lo ++ merged :: st.blocks.drop (hi + 1)) = true) := by
  obtain ⟨hlen, hblocks, hentries, hinit⟩ := hw
  have hmpos : 0 < merged.size ∧ 8 ∣ merged.size := by
    simp only [blockOK, Bool.and_eq_true, decide_eq_true_eq] at hmOK
    exact hmOK.1
  have hpos : ∀ x ∈ st.blocks, 0 < x.size := by
    intro x hx
    have := hblocks x hx
    simp only [blockOK, Bool.and_eq_true, decide_eq_true_eq] at this
    exact this.1.1
  have hltake : (st.blocks.take lo).length = lo := by
    rw [List.length_take]
    omega
  have hlenseg : ((st.blocks.drop lo).take (hi + 1 - lo)).length = hi + 1 - lo := by
    rw [List.length_take, List.length_drop]
    omega
  have hdecomp : st.blocks = st.blocks.take lo ++
      ((st.blocks.drop lo).take (hi + 1 - lo) ++ st.blocks.drop (hi + 1)) := by
    have h1 : st.blocks.take lo ++ st.blocks.drop lo = st.blocks :=
      List.take_append_drop lo st.blocks
    have h2 : (st.blocks.drop lo).take (hi + 1 - lo) ++ (st.blocks.drop lo).drop (hi + 1 - lo)
        = st.blocks.drop lo := List.take_append_drop _ _
    rw [List.drop_drop] at h2
    rw [show lo + (hi + 1 - lo) = hi + 1 from by omega] at h2
    conv_lhs => rw [← h1, ← h2]
  have hposnew : ∀ x ∈ st.blocks.take lo ++ merged :: st.blocks.drop (hi + 1),
      0 < x.size := by
    intro x hx
    rcases List.mem_append.mp hx with hx | hx
    · exact hpos x (List.take_subset lo st.blocks hx)
    · rcases List.mem_cons.mp hx with rfl | hx
      · exact hmpos.1
      · exact hpos x (List.drop_subset (hi + 1) st.blocks hx)
  have hlocmerged :
      idxAt st.heapStart (st.blocks.take lo ++ merged :: st.blocks.drop (hi + 1)) a'
        = some lo := by
    have hlt : lo < (st.blocks.take lo ++ merged :: st.blocks.drop (hi + 1)).length := by
      rw [List.length_append, hltake, List.length_cons]
      omega
    have h0 := idxAt_of_addr hposnew st.heapStart lo hlt
    rw [List.take_append_of_le_length (le_of_eq hltake.symm), List.take_take,
       show lo ⊓ lo = lo from by omega] at h0
    rw [ha']
    exact h0
  have hgetmerged :
      (st.blocks.take lo ++ merged :: st.blocks.drop (hi + 1))[lo]? = some merged := by
    rw [List.getElem?_append, hltake, if_neg (by omega), Nat.sub_self]
    simp
  have hprefix : ∀ n, n < lo →
      (st.blocks.take lo ++ merged :: st.blocks.drop (hi + 1))[n]? = st.blocks[n]? := by
    intro n hn
    rw [List.getElem?_append, hltake, if_pos hn, List.getElem?_take, if_pos hn]
  have hsucc :
      (st.blocks.take lo ++ merged :: st.blocks.drop (hi + 1))[lo + 1]?
        = st.blocks[hi + 1]? := by
    rw [List.getElem?_append, hltake, if_neg (by omega),
       show lo + 1 - lo = 1 from by omega]
    simp only [List.getElem?_cons_succ]
    rw [List.getElem?_drop]
  refine ⟨?_, hlocmerged, hgetmerged, hprefix, hsucc, ?_⟩
  · refine ⟨by rw [hlen']; exact hlen, ?_, ?_, hinit⟩
    · intro x hx
      rcases List.mem_append.mp hx with hx | hx
      · exact hblocks x (List.take_subset lo st.blocks hx)
      · rcases List.mem_cons.mp hx with rfl | hx
        · exact hmOK
        · exact hblocks x (List.drop_subset (hi + 1) st.blocks hx)
    · intro ix hix a'' ha''
      obtain ⟨hmem, hnr⟩ := hmem' ix a'' ha''
      obtain ⟨j, bj, hj, hbj, halloc, hor⟩ := entryOK_iff.mp (hentries ix hix a'' hmem)
      have hjout : j < lo ∨ hi + 1 ≤ j := by
        by_contra hc
        push_neg at hc
        exact hnr (hremoved j a'' bj (by omega) (by omega) hj hbj halloc)
      have hj2 : idxAt st.heapStart (st.blocks.take lo ++
          ((st.blocks.drop lo).take (hi + 1 - lo) ++ st.blocks.drop (hi + 1))) a''
          = some j := by
        rw [← hdecomp]
        exact hj
      have hS1 : sumsz [merged] = sumsz ((st.blocks.drop lo).take (hi + 1 - lo)) := by
        have : sumsz [merged] = merged.size := by
          simp [sumsz]
        rw [this, hsum]
      have hne1 : (st.blocks.drop lo).take (hi + 1 - lo) ≠ [] := by
        intro hc
        have hlc := congrArg List.length hc
        rw [hlenseg] at hlc
        simp only [List.length_nil] at hlc
        omega
      have hpos1 : ∀ x ∈ [merged], 0 < x.size := by
        intro x hx
        rcases List.mem_cons.mp hx with rfl | hx
        · exact hmpos.1
        · simp at hx
      have hrepl := idxAt_replace [merged] hS1 hne1 hpos1 hj2
      rcases hjout with hjlt | hjge
      · obtain ⟨hidx', hget'⟩ := hrepl.1 (by omega)
        refine entryOK_iff.mpr ⟨j, bj, ?_, ?_, halloc, hor⟩
        · show idxAt st.heapStart
              (st.blocks.take lo ++ merged :: st.blocks.drop (hi + 1)) a'' = some j
          simpa using hidx'
        · show (st.blocks.take lo ++ merged :: st.blocks.drop (hi + 1))[j]? = some bj
          have h3 := hget'
          rw [← hdecomp] at h3
          rw [hbj] at h3
          simpa using h3
      · obtain ⟨hidx', hget'⟩ := hrepl.2 (by rw [hltake, hlenseg]; omega)
        refine entryOK_iff.mpr ⟨j - (hi + 1 - lo) + 1, bj, ?_, ?_, halloc, hor⟩
        · show idxAt st.heapStart
              (st.blocks.take lo ++ merged :: st.blocks.drop (hi + 1)) a''
              = some (j - (hi + 1 - lo) + 1)
          have h4 := hidx'
          rw [hlenseg] at h4
          simpa using h4
        · have h3 := hget'
          rw [← hdecomp] at h3
          rw [hbj] at h3
          rw [hlenseg] at h3
          simpa using h3
  · intro hinv
    refine noAdjFree_glue ?_ (noAdjFree_take lo hinv) (noAdjFree_drop (hi + 1) hinv)
    simp only [coalescableB, hmal]
    rfl

/-- WF is preserved by `free_list_remove`. -/
theorem WF_flr (st : AState) (a : Nat) (hw : WF st) : WF (free_list_remove st a) := by
  obtain ⟨hlen, hblocks, hentries, hinit⟩ := hw
  rcases hi : idxAt st.heapStart st.blocks a with _ | i
  · rw [free_list_remove, hi]
    exact ⟨hlen, hblocks, hentries, hinit⟩
  · rcases hb : st.blocks[i]? with _ | b
    · have heq : free_list_remove st a = st := by
        rw [free_list_remove, hi]
        dsimp only
        rw [hb]
      rw [heq]
      exact ⟨hlen, hblocks, hentries, hinit⟩
    · rw [flr_eq hi hb]
      refine ⟨by simpa [listsErase] using hlen, blockOK_flags true hblocks hb, ?_, hinit⟩
      intro ix hix a' ha'
      simp only [getD_listsErase] at ha'
      rw [List.mem_filter] at ha'
      obtain ⟨ha'mem, hane⟩ := ha'
      have hane' : a' ≠ a := by simpa using hane
      obtain ⟨j, bj, hj, hbj, halloc, hor⟩ := entryOK_iff.mp (hentries ix hix a' ha'mem)
      refine entryOK_iff.mpr ⟨j, bj, ?_, ?_, halloc, hor⟩
      · show idxAt st.heapStart (st.blocks.set i { b with alloc := true, quick := false }) a'
            = some j
        rw [idxAt_set_flags { b with alloc := true, quick := false } hb rfl]
        exact hj
      · show (st.blocks.set i { b with alloc := true, quick := false })[j]? = some bj
        have hji : j ≠ i := fun hc => hane' (idxAt_inj hj (hc ▸ hi))
        rw [List.getElem?_set, if_neg (by omega)]
        exact hbj

/-- The record produced by `free_list_insert` (either branch) is
    well-formed. -/
theorem WF_fli_core (st : AState) (a i : Nat) (b : B) (ix0 : Nat)
    (hi : idxAt st.heapStart st.blocks a = some i) (hb : st.blocks[i]? = some b)
    (hix0lt : ix0 < LISTCOUNT)
    (hcond : ix0 = 0 ∨ (find_list_index b.size).toNat = ix0)
    (hlen : st.freeLists.length = LISTCOUNT)
    (hblocks : ∀ x ∈ st.blocks, blockOK x = true)
    (hentries : ∀ ix, ix < LISTCOUNT → ∀ x ∈ st.freeLists.getD ix [], entryOK st ix x = true)
    (hinit : st.inited = true) :
    WF { st with blocks := st.blocks.set i { b with alloc := false, quick := false },
                 freeLists := st.freeLists.set ix0 (a :: st.freeLists.getD ix0 []) } := by
  refine ⟨by simpa using hlen, blockOK_flags false hblocks hb, ?_, hinit⟩
  intro ix hix a' ha'
  have hset : ∀ a'', a'' ∈ st.freeLists.getD ix [] → entryOK
      { st with blocks := st.blocks.set i { b with alloc := false, quick := false },
                freeLists := st.freeLists.set ix0 (a :: st.freeLists.getD ix0 []) }
        ix a'' = true := by
    intro a'' ha''
    obtain ⟨j, bj, hj, hbj, halloc, hor⟩ := entryOK_iff.mp (hentries ix hix a'' ha'')
    by_cases hji : j = i
    · have hj' : idxAt st.heapStart st.blocks a'' = some i := by
        rw [← hji]
        exact hj
      have hbeq : bj = b := by
        rw [hji, hb] at hbj
        exact (Option.some.inj hbj).symm
      refine entryOK_iff.mpr ⟨i, { b with alloc := false, quick := false }, ?_, ?_, rfl, ?_⟩
      · show idxAt st.heapStart (st.blocks.set i { b with alloc := false, quick := false }) a''
            = some i
        rw [idxAt_set_flags { b with alloc := false, quick := false } hb rfl]
        exact hj'
      · show (st.blocks.set i { b with alloc := false, quick := false })[i]? = some _
        rw [List.getElem?_set, if_pos rfl, if_pos (idxAt_some hj').1]
      · show ix = 0 ∨ (find_list_index b.size).toNat = ix
        rw [hbeq] at hor
        exact hor
    · refine entryOK_iff.mpr ⟨j, bj, ?_, ?_, halloc, hor⟩
      · show idxAt st.heapStart (st.blocks.set i { b with alloc := false, quick := false }) a''
            = some j
        rw [idxAt_set_flags { b with alloc := false, quick := false } hb rfl]
        exact hj
      · show (st.blocks.set i { b with alloc := false, quick := false })[j]? = some bj
        rw [List.getElem?_set, if_neg (by omega)]
        exact hbj
  have ha'2 : a' ∈ (st.freeLists.set ix0 (a :: st.freeLists.getD ix0 [])).getD ix [] := ha'
  rw [getD_set] at ha'2
  split at ha'2
  · rename_i hcase
    obtain ⟨rfl, _⟩ := hcase
    rcases List.mem_cons.mp ha'2 with rfl | ha'3
    · refine entryOK_iff.mpr ⟨i, { b with alloc := false, quick := false }, ?_, ?_, rfl, ?_⟩
      · show idxAt st.heapStart (st.blocks.set i { b with alloc := false, quick := false }) a'
            = some i
        rw [idxAt_set_flags { b with alloc := false, quick := false } hb rfl]
        exact hi
      · show (st.blocks.set i { b with alloc := false, quick := false })[i]? = some _
        rw [List.getElem?_set, if_pos rfl, if_pos (idxAt_some hi).1]
      · exact hcond.imp id id
    · exact hset a' ha'3
  · exact hset a' ha'2

/-- WF is preserved by `free_list_insert`. -/
theorem WF_fli (st : AState) (a : Nat) (u : Bool) (hw : WF st) :
    WF (free_list_insert st a u) := by
  obtain ⟨hlen, hblocks, hentries, hinit⟩ := hw
  rcases hi : idxAt st.heapStart st.blocks a with _ | i
  · rw [free_list_insert, hi]
    exact ⟨hlen, hblocks, hentries, hinit⟩
  · rcases hb : st.blocks[i]? with _ | b
    · have heq : free_list_insert st a u = st := by
        rw [free_list_insert, hi]
        dsimp only
        rw [hb]
      rw [heq]
      exact ⟨hlen, hblocks, hentries, hinit⟩
    · rw [fli_eq u hi hb]
      cases u
      · simp only [Bool.false_eq_true, if_false]
        exact WF_fli_core st a i b _ hi hb (fli_toNat_lt b.size) (Or.inr rfl)
          hlen hblocks hentries hinit
      · simp only [if_true]
        exact WF_fli_core st a i b 0 hi hb (by rw [LISTCOUNT]; omega) (Or.inl rfl)
          hlen hblocks hentries hinit

theorem extend_heap_fail {st : AState} {n : Nat} {st' : AState}
    (h : extend_heap st n = (st', none)) : st' = { st with errno := ENOMEM } := by
  rw [extend_heap] at h
  split at h
  · exact (congrArg Prod.fst h).symm
  · exact absurd (congrArg Prod.snd h) (by simp)

/-! ### The adjacency invariant under pointwise updates -/

/-- Setting a non-coalescable block anywhere preserves the invariant. -/
theorem noAdjFree_set_noncoal {bs : List B} {i : Nat} {v : B}
    (hv : coalescableB v = false) (h : noAdjFree bs = true) :
    noAdjFree (bs.set i v) = true := by
  rw [noAdjFree_iff] at h ⊢
  intro j x y hx hy
  rw [List.getElem?_set] at hx hy
  by_cases hji : i = j
  · rw [if_pos hji] at hx
    split at hx
    · obtain rfl : v = x := Option.some.inj hx
      intro hc
      rw [hv] at hc
      exact absurd hc.1 (by simp)
    · exact absurd hx (by simp)
  · rw [if_neg hji] at hx
    by_cases hji1 : i = j + 1
    · rw [if_pos hji1] at hy
      split at hy
      · obtain rfl : v = y := Option.some.inj hy
        intro hc
        rw [hv] at hc
        exact absurd hc.2 (by simp)
      · exact absurd hy (by simp)
    · rw [if_neg hji1] at hy
      exact h j x y hx hy

/-- Setting any block whose two physical neighbors are non-coalescable
    preserves the invariant. -/
theorem noAdjFree_set_nbrs {bs : List B} {i : Nat} {v : B}
    (h : noAdjFree bs = true)
    (hleft : ∀ x, i ≠ 0 → bs[i - 1]? = some x → coalescableB x = false)
    (hright : ∀ y, bs[i + 1]? = some y → coalescableB y = false) :
    noAdjFree (bs.set i v) = true := by
  rw [noAdjFree_iff] at h ⊢
  intro j x y hx hy
  rw [List.getElem?_set] at hx hy
  by_cases hji : i = j
  · rw [if_neg (by omega)] at hy
    intro hc
    subst hji
    exact absurd hc.2 (by rw [hright y hy]; simp)
  · rw [if_neg hji] at hx
    by_cases hji1 : i = j + 1
    · intro hc
      have hx' : bs[i - 1]? = some x := by
        rw [hji1]
        simpa using hx
      exact absurd hc.1 (by rw [hleft x (by omega) hx']; simp)
    · rw [if_neg hji1] at hy
      exact h j x y hx hy

/-! ### Locating blocks across appends -/

/-- A block located in a prefix is located at the same index in any
    extension of that prefix. -/
theorem idxAt_append_left {base : Nat} {xs : List B} (ys : List B) {a j : Nat}
    (h : idxAt base xs a = some j) : idxAt base (xs ++ ys) a = some j := by
  rw [idxAt_append, h]

/-- Where a located block of an appended list lives. -/
theorem idxAt_append_cases {base : Nat} {xs ys : List B} {a j : Nat}
    (h : idxAt base (xs ++ ys) a = some j) :
    (j < xs.length ∧ idxAt base xs a = some j)
    ∨ (xs.length ≤ j ∧ idxAt (base + sumsz xs) ys a = some (j - xs.length)) := by
  rw [idxAt_append] at h
  rcases hx : idxAt base xs a with _ | i
  · rw [hx] at h
    dsimp only at h
    simp only [Option.map_eq_some'] at h
    obtain ⟨k, hk, rfl⟩ := h
    right
    refine ⟨by omega, ?_⟩
    rw [show k + xs.length - xs.length = k from by omega]
    exact hk
  · rw [hx] at h
    dsimp only at h
    obtain rfl : i = j := Option.some.inj h
    exact Or.inl ⟨(idxAt_some hx).1, rfl⟩

/-- The first block after a positive-size prefix is located at the
    prefix's length. -/
theorem idxAt_last {base : Nat} {xs : List B} (y : B) (ys : List B)
    (hpos : ∀ b ∈ xs, 0 < b.size) :
    idxAt base (xs ++ y :: ys) (base + sumsz xs) = some xs.length := by
  rw [idxAt_append]
  rcases hx : idxAt base xs (base + sumsz xs) with _ | i
  · dsimp only
    rw [idxAt, if_pos rfl]
    simp
  · exfalso
    obtain ⟨hlt, heq⟩ := idxAt_some hx
    have := sumsz_take_lt hpos hlt
    omega

/-! ### Frame and size facts about `free_list_remove` -/

/-- Replacing one block by an equal-sized one leaves the size image
    unchanged. -/
theorem map_size_set {bs : List B} {i : Nat} {b b' : B} (hb : bs[i]? = some b)
    (hsz : b'.size = b.size) : (bs.set i b').map B.size = bs.map B.size := by
  refine List.ext_getElem? fun n => ?_
  rw [List.getElem?_map, List.getElem?_map, List.getElem?_set]
  by_cases hn : i = n
  · subst hn
    have hlt : i < bs.length := (List.getElem?_eq_some_iff.mp hb).1
    rw [if_pos rfl, if_pos hlt, hb]
    simp [hsz]
  · rw [if_neg hn]

theorem sumsz_eq_of_map {bs cs : List B} (h : bs.map B.size = cs.map B.size) :
    sumsz bs = sumsz cs := by
  rw [sumsz, sumsz, h]

theorem length_eq_of_map {bs cs : List B} (h : bs.map B.size = cs.map B.size) :
    bs.length = cs.length := by
  have := congrArg List.length h
  simpa using this

theorem map_size_take_eq {bs cs : List B} (h : bs.map B.size = cs.map B.size)
    (k : Nat) : (bs.take k).map B.size = (cs.take k).map B.size := by
  rw [List.map_take, List.map_take, h]

theorem map_size_drop_eq {bs cs : List B} (h : bs.map B.size = cs.map B.size)
    (k : Nat) : (bs.drop k).map B.size = (cs.drop k).map B.size := by
  rw [List.map_drop, List.map_drop, h]

/-- `free_list_remove` touches only the target block's flags and the
    free lists. -/
theorem flr_frame (st : AState) (a : Nat) :
    (free_list_remove st a).heapStart = st.heapStart
    ∧ (free_list_remove st a).errno = st.errno
    ∧ (free_list_remove st a).budget = st.budget
    ∧ (free_list_remove st a).brk = st.brk
    ∧ (free_list_remove st a).inited = st.inited
    ∧ (free_list_remove st a).mem = st.mem := by
  rcases hi : idxAt st.heapStart st.blocks a with _ | i
  · rw [free_list_remove, hi]
    exact ⟨rfl, rfl, rfl, rfl, rfl, rfl⟩
  · rcases hb : st.blocks[i]? with _ | b
    · rw [free_list_remove, hi]
      dsimp only
      rw [hb]
      exact ⟨rfl, rfl, rfl, rfl, rfl, rfl⟩
    · rw [flr_eq hi hb]
      exact ⟨rfl, rfl, rfl, rfl, rfl, rfl⟩

/-- `free_list_remove` preserves every block's size. -/
theorem flr_sizes (st : AState) (a : Nat) :
    (free_list_remove st a).blocks.map B.size = st.blocks.map B.size := by
  rcases hi : idxAt st.heapStart st.blocks a with _ | i
  · rw [free_list_remove, hi]
  · rcases hb : st.blocks[i]? with _ | b
    · rw [free_list_remove, hi]
      dsimp only
      rw [hb]
    · rw [flr_eq hi hb]
      exact map_size_set hb rfl

/-- What `free_list_remove` does to each block slot: nothing, or (at the
    located index only) set the allocated flag and clear the quick
    flag. -/
theorem flr_blocks_at (st : AState) (a j : Nat) :
    (free_list_remove st a).blocks[j]? = st.blocks[j]?
    ∨ (idxAt st.heapStart st.blocks a = some j
       ∧ ∃ bj, st.blocks[j]? = some bj
           ∧ (free_list_remove st a).blocks[j]? = some ⟨bj.size, true, false⟩) := by
  rcases hi : idxAt st.heapStart st.blocks a with _ | i
  · left
    rw [free_list_remove, hi]
  · rcases hb : st.blocks[i]? with _ | b
    · left
      rw [free_list_remove, hi]
      dsimp only
      rw [hb]
    · by_cases hij : i = j
      · right
        subst hij
        refine ⟨rfl, b, hb, ?_⟩
        rw [flr_eq hi hb]
        dsimp only
        rw [List.getElem?_set, if_pos rfl, if_pos (idxAt_some hi).1]
      · left
        rw [flr_eq hi hb]
        dsimp only
        rw [List.getElem?_set, if_neg hij]

/-- `free_list_remove` preserves the adjacency invariant (it only makes
    a block non-coalescable). -/
theorem noAdjFree_flr (st : AState) (a : Nat) (h : noAdjFree st.blocks = true) :
    noAdjFree (free_list_remove st a).blocks = true := by
  rcases hi : idxAt st.heapStart st.blocks a with _ | i
  · rw [free_list_remove, hi]
    exact h
  · rcases hb : st.blocks[i]? with _ | b
    · rw [free_list_remove, hi]
      dsimp only
      rw [hb]
      exact h
    · rw [flr_eq hi hb]
      exact noAdjFree_set_noncoal (by rw [coalescableB]; simp) h

/-- At the located index, `free_list_remove` sets the allocated flag and
    clears the quick flag. -/
theorem flr_set_at {st : AState} {a i : Nat} {b : B}
    (hi : idxAt st.heapStart st.blocks a = some i) (hb : st.blocks[i]? = some b) :
    (free_list_remove st a).blocks[i]? = some ⟨b.size, true, false⟩ := by
  rw [flr_eq hi hb]
  dsimp only
  rw [List.getElem?_set, if_pos rfl, if_pos (idxAt_some hi).1]

/-- Everything a conditional `free_list_remove` step of `coalesce` can
    do, relative to a known located index `k` for its target address. -/
theorem flr_ite_facts {c : Bool} {s s' : AState} {x : Nat} (k : Nat)
    (hs' : s' = (if c = true then free_list_remove s x else s))
    (hloc : c = true → idxAt s.heapStart s.blocks x = some k) :
    (∀ j, j ≠ k → s'.blocks[j]? = s.blocks[j]?)
    ∧ s'.blocks.map B.size = s.blocks.map B.size
    ∧ s'.heapStart = s.heapStart ∧ s'.errno = s.errno ∧ s'.budget = s.budget
    ∧ s'.brk = s.brk ∧ s'.inited = s.inited ∧ s'.mem = s.mem
    ∧ (WF s → WF s')
    ∧ (noAdjFree s.blocks = true → noAdjFree s'.blocks = true) := by
  cases c
  · simp only [Bool.false_eq_true, if_false] at hs'
    subst hs'
    exact ⟨fun j _ => rfl, rfl, rfl, rfl, rfl, rfl, rfl, rfl, id, id⟩
  · simp only [if_true] at hs'
    subst hs'
    refine ⟨?_, flr_sizes s x, (flr_frame s x).1, (flr_frame s x).2.1,
      (flr_frame s x).2.2.1, (flr_frame s x).2.2.2.1, (flr_frame s x).2.2.2.2.1,
      (flr_frame s x).2.2.2.2.2, WF_flr s x, noAdjFree_flr s x⟩
    intro j hj
    rcases flr_blocks_at s x j with he | ⟨hj2, _⟩
    · exact he
    · exact absurd (Option.some.inj ((hloc rfl).symm.trans hj2)) fun hc => hj hc.symm

/-- The third conditional `free_list_remove` of `coalesce` (on the block
    itself): in either branch the slot ends allocated and unquick. -/
theorem flr_ite_self {s s' : AState} {x : Nat} {k : Nat} {bk : B}
    (hloc : idxAt s.heapStart s.blocks x = some k)
    (hbk : s.blocks[k]? = some bk) (hq : bk.quick = false)
    (hs' : s' = (if (!bk.alloc) = true then free_list_remove s x else s)) :
    s'.blocks[k]? = some ⟨bk.size, true, false⟩ := by
  cases hba : bk.alloc
  · rw [hba] at hs'
    simp at hs'
    subst hs'
    exact flr_set_at hloc hbk
  · rw [hba] at hs'
    simp at hs'
    subst hs'
    rw [hbk]
    have hbe : bk = ⟨bk.size, true, false⟩ := by
      rw [show bk = ⟨bk.size, bk.alloc, bk.quick⟩ from rfl, hba, hq]
    rw [← hbe]

/-- `coalesce` in the located case: preserves well-formedness and every
    field other than blocks/freeLists, returns a located merged block,
    and (when the adjacency invariant held) preserves it and leaves the
    merged block with non-coalescable physical neighbors. -/
theorem coalesce_spec {st : AState} {a : Nat} {st' : AState} {a' : Nat}
    (hw : WF st) (h : coalesce st a = some (st', a')) :
    WF st'
    ∧ st'.heapStart = st.heapStart ∧ st'.errno = st.errno ∧ st'.budget = st.budget
    ∧ st'.brk = st.brk ∧ st'.inited = st.inited ∧ st'.mem = st.mem
    ∧ ∃ lo merged, idxAt st'.heapStart st'.blocks a' = some lo
        ∧ st'.blocks[lo]? = some merged
        ∧ (noAdjFree st.blocks = true →
            noAdjFree st'.blocks = true
            ∧ (∀ x, lo ≠ 0 → st'.blocks[lo - 1]? = some x → coalescableB x = false)
            ∧ (∀ y, st'.blocks[lo + 1]? = some y → coalescableB y = false)) := by
  rw [coalesce] at h
  rcases hi : idxAt st.heapStart st.blocks a with _ | i
  · rw [hi] at h
    exact absurd h (by simp)
  · rw [hi] at h
    dsimp only at h
    rcases hb : st.blocks[i]? with _ | b
    · rw [hb] at h
      exact absurd h (by simp)
    · rw [hb] at h
      dsimp only at h
      set pb : B := if i = 0 then sentinel else st.blocks.getD (i - 1) sentinel with hpb
      set nb : B := st.blocks.getD (i + 1) sentinel with hnb
      obtain ⟨hlen, hblocks, hentries, hinit⟩ := hw
      have hilen : i < st.blocks.length := (idxAt_some hi).1
      have haddr : a = st.heapStart + sumsz (st.blocks.take i) := (idxAt_some hi).2
      have hpos : ∀ x ∈ st.blocks, 0 < x.size := by
        intro x hx
        have := hblocks x hx
        simp only [blockOK, Bool.and_eq_true, decide_eq_true_eq] at this
        exact this.1.1
      have hbOK := hblocks b (mem_of_getElem?_eq hb)
      simp only [blockOK, Bool.and_eq_true, decide_eq_true_eq, Bool.not_eq_true'] at hbOK
      obtain ⟨⟨hbpos, hb8⟩, hbq⟩ := hbOK
      have hpbget : i ≠ 0 → st.blocks[i - 1]? = some pb := by
        intro h0
        have hlt : i - 1 < st.blocks.length := by omega
        rcases hg : st.blocks[i - 1]? with _ | x
        · rw [List.getElem?_eq_getElem hlt] at hg
          exact absurd hg (by simp)
        · rw [hpb, if_neg h0, getD_eq_getElem?, hg]
          rfl
      have hnbget : i + 1 < st.blocks.length → st.blocks[i + 1]? = some nb := by
        intro hlt
        rcases hg : st.blocks[i + 1]? with _ | x
        · rw [List.getElem?_eq_getElem hlt] at hg
          exact absurd hg (by simp)
        · rw [hnb, getD_eq_getElem?, hg]
          rfl
      have hnbsent : st.blocks.length ≤ i + 1 → nb = sentinel := by
        intro hge
        rw [hnb, getD_eq_getElem?, List.getElem?_eq_none (by omega)]
        rfl
      have hsplitb : sumsz (st.blocks.take (i + 1)) = sumsz (st.blocks.take i) + b.size :=
        sumsz_take_succ hb
      by_cases hmp : (!pb.alloc && !pb.quick) = true
      · -- the previous block merges
        have hi0 : i ≠ 0 := by
          intro h0
          rw [hpb, if_pos h0] at hmp
          simp [sentinel] at hmp
        have hpbget2 := hpbget hi0
        have hpbOK := hblocks pb (mem_of_getElem?_eq hpbget2)
        simp only [blockOK, Bool.and_eq_true, decide_eq_true_eq, Bool.not_eq_true'] at hpbOK
        obtain ⟨⟨hpbpos, hpb8⟩, hpbq⟩ := hpbOK
        have hsplitp : sumsz (st.blocks.take i) = sumsz (st.blocks.take (i - 1)) + pb.size := by
          have h2 := sumsz_take_succ hpbget2
          rw [show i - 1 + 1 = i from by omega] at h2
          exact h2
        have hA1loc : idxAt st.heapStart st.blocks (a - pb.size) = some (i - 1) := by
          have hterm := idxAt_of_addr hpos st.heapStart (i - 1) (by omega)
          rw [show a - pb.size = st.heapStart + sumsz (st.blocks.take (i - 1)) from by omega]
          exact hterm
        by_cases hmn : (!nb.alloc && !nb.quick) = true
        · -- both neighbors merge
          have hmnlt : i + 1 < st.blocks.length := by
            by_contra hc
            push_neg at hc
            rw [hnbsent hc] at hmn
            simp [sentinel] at hmn
          have hnbget2 := hnbget hmnlt
          have hnbOK := hblocks nb (mem_of_getElem?_eq hnbget2)
          simp only [blockOK, Bool.and_eq_true, decide_eq_true_eq, Bool.not_eq_true'] at hnbOK
          obtain ⟨⟨hnbpos, hnb8⟩, hnbq⟩ := hnbOK
          have hA2loc : idxAt st.heapStart st.blocks (a + b.size) = some (i + 1) := by
            have hterm := idxAt_of_addr hpos st.heapStart (i + 1) hmnlt
            rw [show a + b.size = st.heapStart + sumsz (st.blocks.take (i + 1)) from by omega]
            exact hterm
          simp only [hmp, hmn, eq_self_iff_true, if_true] at h
          rw [if_neg (by omega)] at h
          set st1 := free_list_remove st (a - pb.size) with hst1
          set st2 := free_list_remove st1 (a + b.size) with hst2
          set st3 := if (!b.alloc) = true then free_list_remove st2 a else st2 with hst3
          have hpair := Option.some.inj h
          have hsteq := congrArg Prod.fst hpair
          have ha'eq := congrArg Prod.snd hpair
          dsimp only at hsteq ha'eq
          subst hsteq
          subst ha'eq
          have h1f := flr_frame st (a - pb.size)
          have h2f := flr_frame st1 (a + b.size)
          have h1sz : st1.blocks.map B.size = st.blocks.map B.size := flr_sizes st (a - pb.size)
          have h1hs : st1.heapStart = st.heapStart := h1f.1
          have h1out : ∀ j, j ≠ i - 1 → st1.blocks[j]? = st.blocks[j]? := by
            intro j hj
            rcases flr_blocks_at st (a - pb.size) j with he | ⟨hj2, _⟩
            · exact he
            · exact absurd (Option.some.inj (hA1loc.symm.trans hj2)) fun hc => hj hc.symm
          have h1at : st1.blocks[i - 1]? = some ⟨pb.size, true, false⟩ :=
            flr_set_at hA1loc hpbget2
          have h2sz : st2.blocks.map B.size = st.blocks.map B.size :=
            (flr_sizes st1 (a + b.size)).trans h1sz
          have h2hs : st2.heapStart = st.heapStart := h2f.1.trans h1hs
          have hA2loc1 : idxAt st1.heapStart st1.blocks (a + b.size) = some (i + 1) := by
            rw [h1hs, idxAt_congr_sizes h1sz]
            exact hA2loc
          have h2out : ∀ j, j ≠ i + 1 → st2.blocks[j]? = st1.blocks[j]? := by
            intro j hj
            rcases flr_blocks_at st1 (a + b.size) j with he | ⟨hj2, _⟩
            · exact he
            · exact absurd (Option.some.inj (hA2loc1.symm.trans hj2)) fun hc => hj hc.symm
          have h2at_prev : st2.blocks[i - 1]? = some ⟨pb.size, true, false⟩ := by
            rw [h2out (i - 1) (by omega)]
            exact h1at
          have h2at_nb : st2.blocks[i + 1]? = some ⟨nb.size, true, false⟩ := by
            refine flr_set_at hA2loc1 ?_
            rw [h1out (i + 1) (by omega)]
            exact hnbget2
          have h2at_b : st2.blocks[i]? = some b := by
            rw [h2out i (by omega), h1out i (by omega)]
            exact hb
          have hA3loc2 : idxAt st2.heapStart st2.blocks a = some i := by
            rw [h2hs, idxAt_congr_sizes h2sz]
            exact hi
          obtain ⟨h3out, h3sz0, h3hs0, h3err0, h3bud0, h3brk0, h3init0, h3mem0, h3wf0, h3naf0⟩ :=
            flr_ite_facts i hst3 (fun _ => hA3loc2)
          have h3at_b : st3.blocks[i]? = some ⟨b.size, true, false⟩ :=
            flr_ite_self hA3loc2 h2at_b hbq hst3
          have h3at_prev : st3.blocks[i - 1]? = some ⟨pb.size, true, false⟩ := by
            rw [h3out (i - 1) (by omega)]
            exact h2at_prev
          have h3at_nb : st3.blocks[i + 1]? = some ⟨nb.size, true, false⟩ := by
            rw [h3out (i + 1) (by omega)]
            exact h2at_nb
          have h3sz : st3.blocks.map B.size = st.blocks.map B.size := h3sz0.trans h2sz
          have h3len : st3.blocks.length = st.blocks.length := length_eq_of_map h3sz
          have h3hs : st3.heapStart = st.heapStart := h3hs0.trans h2hs
          have h3wf : WF st3 :=
            h3wf0 (WF_flr st1 _ (WF_flr st _ ⟨hlen, hblocks, hentries, hinit⟩))
          have h3outer : ∀ j, j < i - 1 ∨ i + 1 < j → st3.blocks[j]? = st.blocks[j]? := by
            intro j hj
            rw [h3out j (by omega), h2out j (by omega), h1out j (by omega)]
          have hseg : sumsz ((st3.blocks.drop (i - 1)).take (i + 1 + 1 - (i - 1)))
              = pb.size + b.size + nb.size := by
            rw [show i + 1 + 1 - (i - 1) = 3 from by omega]
            have hd0 : (st3.blocks.drop (i - 1))[0]? = some ⟨pb.size, true, false⟩ := by
              rw [List.getElem?_drop, show i - 1 + 0 = i - 1 from by omega]
              exact h3at_prev
            have hd1 : (st3.blocks.drop (i - 1))[1]? = some ⟨b.size, true, false⟩ := by
              rw [List.getElem?_drop, show i - 1 + 1 = i from by omega]
              exact h3at_b
            have hd2 : (st3.blocks.drop (i - 1))[2]? = some ⟨nb.size, true, false⟩ := by
              rw [List.getElem?_drop, show i - 1 + 2 = i + 1 from by omega]
              exact h3at_nb
            rw [show (3 : Nat) = 2 + 1 from rfl, sumsz_take_succ hd2,
               show (2 : Nat) = 1 + 1 from rfl, sumsz_take_succ hd1,
               show (1 : Nat) = 0 + 1 from rfl, sumsz_take_succ hd0]
            simp only [List.take_zero, sumsz_nil]
            omega
          have hsum : (⟨b.size + pb.size + nb.size, true, false⟩ : B).size
              = sumsz ((st3.blocks.drop (i - 1)).take (i + 1 + 1 - (i - 1))) := by
            rw [hseg]
            dsimp only
            omega
          have hmOK : blockOK ⟨b.size + pb.size + nb.size, true, false⟩ = true := by
            simp only [blockOK, Bool.and_eq_true, decide_eq_true_eq]
            exact ⟨⟨by omega, Nat.dvd_add (Nat.dvd_add hb8 hpb8) hnb8⟩, rfl⟩
          have ha'addr : a - pb.size = st3.heapStart + sumsz (st3.blocks.take (i - 1)) := by
            have hte : sumsz (st3.blocks.take (i - 1)) = sumsz (st.blocks.take (i - 1)) :=
              sumsz_eq_of_map (map_size_take_eq h3sz (i - 1))
            rw [h3hs, hte]
            omega
          have hremovedW : ∀ j a'' bj, i - 1 ≤ j → j ≤ i + 1 →
              idxAt st3.heapStart st3.blocks a'' = some j →
              st3.blocks[j]? = some bj → bj.alloc = false → a'' ∈ ([] : List Nat) := by
            intro j a'' bj hj1 hj2 hidx hget halloc
            exfalso
            have hj3 : j = i - 1 ∨ j = i ∨ j = i + 1 := by omega
            rcases hj3 with rfl | rfl | rfl
            · rw [h3at_prev] at hget
              obtain rfl := Option.some.inj hget
              exact absurd halloc (by simp)
            · rw [h3at_b] at hget
              obtain rfl := Option.some.inj hget
              exact absurd halloc (by simp)
            · rw [h3at_nb] at hget
              obtain rfl := Option.some.inj hget
              exact absurd halloc (by simp)
          obtain ⟨hW', hloc', hget', hpref', hsucc', hnaf'⟩ :=
            coalesce_surgery st3 (i - 1) (i + 1) ⟨b.size + pb.size + nb.size, true, false⟩
              (a - pb.size) [] st3.freeLists h3wf (by omega) (by rw [h3len]; exact hmnlt)
              hsum hmOK rfl ha'addr rfl (fun ix a'' hx => ⟨hx, by simp⟩) hremovedW
          refine ⟨hW', h3hs, h3err0.trans (h2f.2.1.trans h1f.2.1),
            h3bud0.trans (h2f.2.2.1.trans h1f.2.2.1),
            h3brk0.trans (h2f.2.2.2.1.trans h1f.2.2.2.1),
            h3init0.trans (h2f.2.2.2.2.1.trans h1f.2.2.2.2.1),
            h3mem0.trans (h2f.2.2.2.2.2.trans h1f.2.2.2.2.2),
            i - 1, ⟨b.size + pb.size + nb.size, true, false⟩, hloc', hget', ?_⟩
          intro hinvSt
          have hinv3 : noAdjFree st3.blocks = true :=
            h3naf0 (noAdjFree_flr st1 _ (noAdjFree_flr st _ hinvSt))
          refine ⟨hnaf' hinv3, ?_, ?_⟩
          · intro x hx0 hxget
            have hxg2 : st.blocks[i - 1 - 1]? = some x := by
              rw [← h3outer (i - 1 - 1) (by omega), ← hpref' (i - 1 - 1) (by omega)]
              exact hxget
            have hxg3 : st.blocks[i - 2]? = some x := by
              rw [show i - 2 = i - 1 - 1 from by omega]
              exact hxg2
            have hpair2 := (noAdjFree_iff st.blocks).mp hinvSt (i - 2) x pb hxg3
              (by rw [show i - 2 + 1 = i - 1 from by omega]; exact hpbget2)
            cases hcx : coalescableB x
            · rfl
            · exact absurd ⟨hcx, hmp⟩ hpair2
          · intro y hyget
            have hyg2 : st.blocks[i + 1 + 1]? = some y := by
              rw [← h3outer (i + 1 + 1) (by omega), ← hsucc']
              exact hyget
            have hpair2 := (noAdjFree_iff st.blocks).mp hinvSt (i + 1) nb y hnbget2 hyg2
            cases hcy : coalescableB y
            · rfl
            · exact absurd ⟨hmn, hcy⟩ hpair2
        · -- only the previous block merges
          rw [Bool.not_eq_true] at hmn
          simp only [hmp, hmn, eq_self_iff_true, if_true, Bool.false_eq_true, if_false,
            Nat.add_zero] at h
          rw [if_neg (by omega)] at h
          set st1 := free_list_remove st (a - pb.size) with hst1
          set st3 := if (!b.alloc) = true then free_list_remove st1 a else st1 with hst3
          have hpair := Option.some.inj h
          have hsteq := congrArg Prod.fst hpair
          have ha'eq := congrArg Prod.snd hpair
          dsimp only at hsteq ha'eq
          subst hsteq
          subst ha'eq
          have h1f := flr_frame st (a - pb.size)
          have h1sz : st1.blocks.map B.size = st.blocks.map B.size := flr_sizes st (a - pb.size)
          have h1hs : st1.heapStart = st.heapStart := h1f.1
          have h1out : ∀ j, j ≠ i - 1 → st1.blocks[j]? = st.blocks[j]? := by
            intro j hj
            rcases flr_blocks_at st (a - pb.size) j with he | ⟨hj2, _⟩
            · exact he
            · exact absurd (Option.some.inj (hA1loc.symm.trans hj2)) fun hc => hj hc.symm
          have h1at : st1.blocks[i - 1]? = some ⟨pb.size, true, false⟩ :=
            flr_set_at hA1loc hpbget2
          have h1at_b : st1.blocks[i]? = some b := by
            rw [h1out i (by omega)]
            exact hb
          have hA3loc1 : idxAt st1.heapStart st1.blocks a = some i := by
            rw [h1hs, idxAt_congr_sizes h1sz]
            exact hi
          obtain ⟨h3out, h3sz0, h3hs0, h3err0, h3bud0, h3brk0, h3init0, h3mem0, h3wf0, h3naf0⟩ :=
            flr_ite_facts i hst3 (fun _ => hA3loc1)
          have h3at_b : st3.blocks[i]? = some ⟨b.size, true, false⟩ :=
            flr_ite_self hA3loc1 h1at_b hbq hst3
          have h3at_prev : st3.blocks[i - 1]? = some ⟨pb.size, true, false⟩ := by
            rw [h3out (i - 1) (by omega)]
            exact h1at
          have h3sz : st3.blocks.map B.size = st.blocks.map B.size := h3sz0.trans h1sz
          have h3len : st3.blocks.length = st.blocks.length := length_eq_of_map h3sz
          have h3hs : st3.heapStart = st.heapStart := h3hs0.trans h1hs
          have h3wf : WF st3 := h3wf0 (WF_flr st _ ⟨hlen, hblocks, hentries, hinit⟩)
          have h3outer : ∀ j, j < i - 1 ∨ i < j → st3.blocks[j]? = st.blocks[j]? := by
            intro j hj
            rw [h3out j (by omega), h1out j (by omega)]
          have hseg : sumsz ((st3.blocks.drop (i - 1)).take (i + 1 - (i - 1)))
              = pb.size + b.size := by
            rw [show i + 1 - (i - 1) = 2 from by omega]
            have hd0 : (st3.blocks.drop (i - 1))[0]? = some ⟨pb.size, true, false⟩ := by
              rw [List.getElem?_drop, show i - 1 + 0 = i - 1 from by omega]
              exact h3at_prev
            have hd1 : (st3.blocks.drop (i - 1))[1]? = some ⟨b.size, true, false⟩ := by
              rw [List.getElem?_drop, show i - 1 + 1 = i from by omega]
              exact h3at_b
            rw [show (2 : Nat) = 1 + 1 from rfl, sumsz_take_succ hd1,
               show (1 : Nat) = 0 + 1 from rfl, sumsz_take_succ hd0]
            simp only [List.take_zero, sumsz_nil]
            omega
          have hsum : (⟨b.size + pb.size, true, false⟩ : B).size
              = sumsz ((st3.blocks.drop (i - 1)).take (i + 1 - (i - 1))) := by
            rw [hseg]
            dsimp only
            omega
          have hmOK : blockOK ⟨b.size + pb.size, true, false⟩ = true := by
            simp only [blockOK, Bool.and_eq_true, decide_eq_true_eq]
            exact ⟨⟨by omega, Nat.dvd_add hb8 hpb8⟩, rfl⟩
          have ha'addr : a - pb.size = st3.heapStart + sumsz (st3.blocks.take (i - 1)) := by
            have hte : sumsz (st3.blocks.take (i - 1)) = sumsz (st.blocks.take (i - 1)) :=
              sumsz_eq_of_map (map_size_take_eq h3sz (i - 1))
            rw [h3hs, hte]
            omega
          have hremovedW : ∀ j a'' bj, i - 1 ≤ j → j ≤ i →
              idxAt st3.heapStart st3.blocks a'' = some j →
              st3.blocks[j]? = some bj → bj.alloc = false → a'' ∈ ([] : List Nat) := by
            intro j a'' bj hj1 hj2 hidx hget halloc
            exfalso
            have hj3 : j = i - 1 ∨ j = i := by omega
            rcases hj3 with rfl | rfl
            · rw [h3at_prev] at hget
              obtain rfl := Option.some.inj hget
              exact absurd halloc (by simp)
            · rw [h3at_b] at hget
              obtain rfl := Option.some.inj hget
              exact absurd halloc (by simp)
          obtain ⟨hW', hloc', hget', hpref', hsucc', hnaf'⟩ :=
            coalesce_surgery st3 (i - 1) i ⟨b.size + pb.size, true, false⟩
              (a - pb.size) [] st3.freeLists h3wf (by omega) (by rw [h3len]; omega)
              hsum hmOK rfl ha'addr rfl (fun ix a'' hx => ⟨hx, by simp⟩) hremovedW
          refine ⟨hW', h3hs, h3err0.trans h1f.2.1, h3bud0.trans h1f.2.2.1,
            h3brk0.trans h1f.2.2.2.1, h3init0.trans h1f.2.2.2.2.1,
            h3mem0.trans h1f.2.2.2.2.2,
            i - 1, ⟨b.size + pb.size, true, false⟩, hloc', hget', ?_⟩
          intro hinvSt
          have hinv3 : noAdjFree st3.blocks = true := h3naf0 (noAdjFree_flr st _ hinvSt)
          refine ⟨hnaf' hinv3, ?_, ?_⟩
          · intro x hx0 hxget
            have hxg2 : st.blocks[i - 1 - 1]? = some x := by
              rw [← h3outer (i - 1 - 1) (by omega), ← hpref' (i - 1 - 1) (by omega)]
              exact hxget
            have hxg3 : st.blocks[i - 2]? = some x := by
              rw [show i - 2 = i - 1 - 1 from by omega]
              exact hxg2
            have hpair2 := (noAdjFree_iff st.blocks).mp hinvSt (i - 2) x pb hxg3
              (by rw [show i - 2 + 1 = i - 1 from by omega]; exact hpbget2)
            cases hcx : coalescableB x
            · rfl
            · exact absurd ⟨hcx, hmp⟩ hpair2
          · intro y hyget
            have hyg2 : st.blocks[i + 1]? = some y := by
              rw [← h3outer (i + 1) (by omega), ← hsucc']
              exact hyget
            have hylt : i + 1 < st.blocks.length := by
              by_contra hc
              push_neg at hc
              rw [List.getElem?_eq_none (by omega)] at hyg2
              exact absurd hyg2 (by simp)
            have hyeq : y = nb := by
              have := (hnbget hylt).symm.trans hyg2
              exact (Option.some.inj this).symm
            rw [hyeq]
            exact hmn
      · -- the previous block does not merge
        rw [Bool.not_eq_true] at hmp
        by_cases hmn : (!nb.alloc && !nb.quick) = true
        · -- only the next block merges
          have hmnlt : i + 1 < st.blocks.length := by
            by_contra hc
            push_neg at hc
            rw [hnbsent hc] at hmn
            simp [sentinel] at hmn
          have hnbget2 := hnbget hmnlt
          have hnbOK := hblocks nb (mem_of_getElem?_eq hnbget2)
          simp only [blockOK, Bool.and_eq_true, decide_eq_true_eq, Bool.not_eq_true'] at hnbOK
          obtain ⟨⟨hnbpos, hnb8⟩, hnbq⟩ := hnbOK
          have hA2loc : idxAt st.heapStart st.blocks (a + b.size) = some (i + 1) := by
            have hterm := idxAt_of_addr hpos st.heapStart (i + 1) hmnlt
            rw [show a + b.size = st.heapStart + sumsz (st.blocks.take (i + 1)) from by omega]
            exact hterm
          simp only [hmp, hmn, eq_self_iff_true, if_true, Bool.false_eq_true, if_false,
            Nat.add_zero, hbq, ite_self] at h
          rw [if_neg (by omega)] at h
          set st1 := free_list_remove st (a + b.size) with hst1
          set st3 := if (!b.alloc) = true then free_list_remove st1 a else st1 with hst3
          have hpair := Option.some.inj h
          have hsteq := congrArg Prod.fst hpair
          have ha'eq := congrArg Prod.snd hpair
          dsimp only at hsteq ha'eq
          subst hsteq
          subst ha'eq
          have h1f := flr_frame st (a + b.size)
          have h1sz : st1.blocks.map B.size = st.blocks.map B.size := flr_sizes st (a + b.size)
          have h1hs : st1.heapStart = st.heapStart := h1f.1
          have h1out : ∀ j, j ≠ i + 1 → st1.blocks[j]? = st.blocks[j]? := by
            intro j hj
            rcases flr_blocks_at st (a + b.size) j with he | ⟨hj2, _⟩
            · exact he
            · exact absurd (Option.some.inj (hA2loc.symm.trans hj2)) fun hc => hj hc.symm
          have h1at : st1.blocks[i + 1]? = some ⟨nb.size, true, false⟩ :=
            flr_set_at hA2loc hnbget2
          have h1at_b : st1.blocks[i]? = some b := by
            rw [h1out i (by omega)]
            exact hb
          have hA3loc1 : idxAt st1.heapStart st1.blocks a = some i := by
            rw [h1hs, idxAt_congr_sizes h1sz]
            exact hi
          obtain ⟨h3out, h3sz0, h3hs0, h3err0, h3bud0, h3brk0, h3init0, h3mem0, h3wf0, h3naf0⟩ :=
            flr_ite_facts i hst3 (fun _ => hA3loc1)
          have h3at_b : st3.blocks[i]? = some ⟨b.size, true, false⟩ :=
            flr_ite_self hA3loc1 h1at_b hbq hst3
          have h3at_nb : st3.blocks[i + 1]? = some ⟨nb.size, true, false⟩ := by
            rw [h3out (i + 1) (by omega)]
            exact h1at
          have h3sz : st3.blocks.map B.size = st.blocks.map B.size := h3sz0.trans h1sz
          have h3len : st3.blocks.length = st.blocks.length := length_eq_of_map h3sz
          have h3hs : st3.heapStart = st.heapStart := h3hs0.trans h1hs
          have h3wf : WF st3 := h3wf0 (WF_flr st _ ⟨hlen, hblocks, hentries, hinit⟩)
          have h3outer : ∀ j, j < i ∨ i + 1 < j → st3.blocks[j]? = st.blocks[j]? := by
            intro j hj
            rw [h3out j (by omega), h1out j (by omega)]
          have hseg : sumsz ((st3.blocks.drop i).take (i + 1 + 1 - i))
              = b.size + nb.size := by
            rw [show i + 1 + 1 - i = 2 from by omega]
            have hd0 : (st3.blocks.drop i)[0]? = some ⟨b.size, true, false⟩ := by
              rw [List.getElem?_drop, show i + 0 = i from by omega]
              exact h3at_b
            have hd1 : (st3.blocks.drop i)[1]? = some ⟨nb.size, true, false⟩ := by
              rw [List.getElem?_drop]
              exact h3at_nb
            rw [show (2 : Nat) = 1 + 1 from rfl, sumsz_take_succ hd1,
               show (1 : Nat) = 0 + 1 from rfl, sumsz_take_succ hd0]
            simp only [List.take_zero, sumsz_nil]
            omega
          have hsum : (⟨b.size + nb.size, true, false⟩ : B).size
              = sumsz ((st3.blocks.drop i).take (i + 1 + 1 - i)) := by
            rw [hseg]
          have hmOK : blockOK ⟨b.size + nb.size, true, false⟩ = true := by
            simp only [blockOK, Bool.and_eq_true, decide_eq_true_eq]
            exact ⟨⟨by omega, Nat.dvd_add hb8 hnb8⟩, rfl⟩
          have ha'addr : a = st3.heapStart + sumsz (st3.blocks.take i) := by
            have hte : sumsz (st3.blocks.take i) = sumsz (st.blocks.take i) :=
              sumsz_eq_of_map (map_size_take_eq h3sz i)
            rw [h3hs, hte]
            omega
          have hremovedW : ∀ j a'' bj, i ≤ j → j ≤ i + 1 →
              idxAt st3.heapStart st3.blocks a'' = some j →
              st3.blocks[j]? = some bj → bj.alloc = false → a'' ∈ ([] : List Nat) := by
            intro j a'' bj hj1 hj2 hidx hget halloc
            exfalso
            have hj3 : j = i ∨ j = i + 1 := by omega
            rcases hj3 with rfl | rfl
            · rw [h3at_b] at hget
              obtain rfl := Option.some.inj hget
              exact absurd halloc (by simp)
            · rw [h3at_nb] at hget
              obtain rfl := Option.some.inj hget
              exact absurd halloc (by simp)
          obtain ⟨hW', hloc', hget', hpref', hsucc', hnaf'⟩ :=
            coalesce_surgery st3 i (i + 1) ⟨b.size + nb.size, true, false⟩
              a [] st3.freeLists h3wf (by omega) (by rw [h3len]; exact hmnlt)
              hsum hmOK rfl ha'addr rfl (fun ix a'' hx => ⟨hx, by simp⟩) hremovedW
          refine ⟨hW', h3hs, h3err0.trans h1f.2.1, h3bud0.trans h1f.2.2.1,
            h3brk0.trans h1f.2.2.2.1, h3init0.trans h1f.2.2.2.2.1,
            h3mem0.trans h1f.2.2.2.2.2,
            i, ⟨b.size + nb.size, true, false⟩, hloc', hget', ?_⟩
          intro hinvSt
          have hinv3 : noAdjFree st3.blocks = true := h3naf0 (noAdjFree_flr st _ hinvSt)
          refine ⟨hnaf' hinv3, ?_, ?_⟩
          · intro x hx0 hxget
            have hxg2 : st.blocks[i - 1]? = some x := by
              rw [← h3outer (i - 1) (by omega), ← hpref' (i - 1) (by omega)]
              exact hxget
            have hxeq : x = pb := by
              have := (hpbget hx0).symm.trans hxg2
              exact (Option.some.inj this).symm
            rw [hxeq]
            exact hmp
          · intro y hyget
            have hyg2 : st.blocks[i + 1 + 1]? = some y := by
              rw [← h3outer (i + 1 + 1) (by omega), ← hsucc']
              exact hyget
            have hpair2 := (noAdjFree_iff st.blocks).mp hinvSt (i + 1) nb y hnbget2 hyg2
            cases hcy : coalescableB y
            · rfl
            · exact absurd ⟨hmn, hcy⟩ hpair2
        · -- nothing merges: coalesce is the identity
          rw [Bool.not_eq_true] at hmn
          simp only [hmp, hmn, Bool.false_eq_true, if_false, Nat.add_zero,
            eq_self_iff_true, if_true] at h
          have hpair := Option.some.inj h
          have hsteq := congrArg Prod.fst hpair
          have ha'eq := congrArg Prod.snd hpair
          dsimp only at hsteq ha'eq
          subst hsteq
          subst ha'eq
          refine ⟨⟨hlen, hblocks, hentries, hinit⟩, rfl, rfl, rfl, rfl, rfl, rfl,
            i, b, hi, hb, ?_⟩
          intro hinvSt
          refine ⟨hinvSt, ?_, ?_⟩
          · intro x hx0 hxget
            have hxeq : x = pb := by
              have := (hpbget hx0).symm.trans hxget
              exact (Option.some.inj this).symm
            rw [hxeq]
            exact hmp
          · intro y hyget
            have hylt : i + 1 < st.blocks.length := by
              by_contra hc
              push_neg at hc
              rw [List.getElem?_eq_none (by omega)] at hyget
              exact absurd hyget (by simp)
            have hyeq : y = nb := by
              have := (hnbget hylt).symm.trans hyget
              exact (Option.some.inj this).symm
            rw [hyeq]
            exact hmn

/-! ## Search lemmas: `find_in_list`, `scanLists`, `sweep`, `find_block` -/

theorem fil_walk_spec : ∀ {l : List Nat} {st : AState} {sz a : Nat},
    fil_walk st l sz = some a → sz ≤ sizeAt st a ∧ a ∈ l := by
  intro l
  induction l with
  | nil =>
    intro st sz a h
    rw [fil_walk] at h
    exact absurd h (by simp)
  | cons x t ih =>
    intro st sz a h
    rw [fil_walk] at h
    split at h
    · rename_i hle
      obtain rfl : x = a := Option.some.inj h
      exact ⟨hle, by simp⟩
    · obtain ⟨h1, h2⟩ := ih h
      exact ⟨h1, by simp [h2]⟩

theorem find_in_list_spec {st : AState} {l : List Nat} {sz a : Nat}
    (h : find_in_list st l sz = some a) :
    a ∈ l ∧ (MAXSMALL < sz → sz ≤ sizeAt st a) := by
  rw [find_in_list] at h
  split at h
  · rename_i hle
    refine ⟨?_, fun hc => absurd hle (by omega)⟩
    cases l with
    | nil => exact absurd h (by simp [List.head?])
    | cons x t =>
      simp only [List.head?, Option.some.injEq] at h
      rw [← h]
      exact List.mem_cons_self x t
  · obtain ⟨h1, h2⟩ := fil_walk_spec h
    exact ⟨h2, fun _ => h1⟩

theorem scanLists_spec : ∀ (ixs : List Nat) {st : AState} {sz a : Nat},
    scanLists st sz ixs = some a →
    ∃ ix ∈ ixs, find_in_list st (st.freeLists.getD ix []) sz = some a := by
  intro ixs
  induction ixs with
  | nil =>
    intro st sz a h
    rw [scanLists] at h
    exact absurd h (by simp)
  | cons ix rest ih =>
    intro st sz a h
    rw [scanLists] at h
    rcases hf : find_in_list st (st.freeLists.getD ix []) sz with _ | a2
    · rw [hf] at h
      dsimp only at h
      obtain ⟨ix2, hmem, hfind⟩ := ih h
      exact ⟨ix2, by simp [hmem], hfind⟩
    · rw [hf] at h
      dsimp only at h
      obtain rfl : a2 = a := Option.some.inj h
      exact ⟨ix, by simp, hf⟩

/-- The arithmetic heart of C7's small-size case: on 8-byte-multiple
    sizes, a bucket index at least as large (and at least 1, excluding
    the unsorted list) forces a block size at least as large. -/
theorem small_bucket_ge {sz bsz : Nat} (hszle : sz ≤ MAXSMALL) (hsz8 : 8 ∣ sz)
    (hszpos : 0 < sz) (hbpos : 0 < bsz) (hb8 : 8 ∣ bsz)
    (hge1 : 1 ≤ (find_list_index bsz).toNat)
    (hmono : (find_list_index sz).toNat ≤ (find_list_index bsz).toNat) :
    sz ≤ bsz := by
  rw [MAXSMALL] at hszle
  by_cases hbig : bsz < 512
  · have hbv : (find_list_index bsz).toNat = bsz / 8 - 1 := by
      rw [find_list_index, if_pos hbig, shiftr3_eq]
      omega
    have hsv : (find_list_index sz).toNat = sz / 8 - 1 := by
      rw [find_list_index, if_pos (by omega), shiftr3_eq]
      omega
    rw [hbv] at hmono hge1
    rw [hsv] at hmono
    omega
  · omega

/-- The unsorted sweep of `find_block`: preserves well-formedness and
    the adjacency invariant, empties the unsorted list when it reports
    "not found", and returns an allocated block of sufficient size whose
    physical successor is non-coalescable. -/
theorem sweep_spec : ∀ (fuel : Nat) {st : AState} {sz : Nat} {st' : AState} {r : Option Nat},
    WF st → sweep fuel st sz = some (st', r) →
    WF st'
    ∧ (noAdjFree st.blocks = true → noAdjFree st'.blocks = true)
    ∧ (r = none → st'.freeLists.getD 0 [] = [])
    ∧ (∀ a2, r = some a2 → ∃ i b, idxAt st'.heapStart st'.blocks a2 = some i
        ∧ st'.blocks[i]? = some b ∧ b.alloc = true ∧ sz ≤ b.size
        ∧ (noAdjFree st.blocks = true →
            ∀ y, st'.blocks[i + 1]? = some y → coalescableB y = false)) := by
  intro fuel
  induction fuel with
  | zero =>
    intro st sz st' r hw h
    rw [sweep] at h
    exact absurd h (by simp)
  | succ fuel ih =>
    intro st sz st' r hw h
    rw [sweep] at h
    rcases hh : (st.freeLists.getD 0 []).head? with _ | a0
    · rw [hh] at h
      dsimp only at h
      have hp := Option.some.inj h
      have hst := congrArg Prod.fst hp
      have hr := congrArg Prod.snd hp
      dsimp only at hst hr
      subst hst
      subst hr
      refine ⟨hw, id, fun _ => List.head?_eq_none_iff.mp hh, ?_⟩
      intro a2 hr2
      exact absurd hr2 (by simp)
    · rw [hh] at h
      dsimp only at h
      rcases hc : coalesce st a0 with _ | ⟨stC, aC⟩
      · rw [hc] at h
        exact absurd h (by simp)
      · rw [hc] at h
        dsimp only at h
        obtain ⟨hwC, hhsC, herrC, hbudC, hbrkC, hinitC, hmemC, lo, merged, hlocC, hgetC, hcondC⟩ :=
          coalesce_spec hw hc
        rcases hba : blockAt stC aC with _ | bC
        · rw [hba] at h
          exact absurd h (by simp)
        · rw [hba] at h
          dsimp only at h
          have hbaeq : bC = merged := by
            have h2 : blockAt stC aC = some merged := by
              rw [blockAt_def, hlocC]
              exact hgetC
            exact Option.some.inj (hba.symm.trans h2)
          subst hbaeq
          have hmOK : blockOK bC = true := hwC.2.1 bC (mem_of_getElem?_eq hgetC)
          have hmq : bC.quick = false := by
            simp only [blockOK, Bool.and_eq_true, Bool.not_eq_true'] at hmOK
            exact hmOK.2
          set stD := if (!bC.alloc) = true then free_list_remove stC aC else stC with hstD
          obtain ⟨hDout, hDsz, hDhs, hDerr, hDbud, hDbrk, hDinit, hDmem, hDwf, hDnaf⟩ :=
            flr_ite_facts lo hstD (fun _ => hlocC)
          have hDat : stD.blocks[lo]? = some ⟨bC.size, true, false⟩ :=
            flr_ite_self hlocC hgetC hmq hstD
          have hDloc : idxAt stD.heapStart stD.blocks aC = some lo := by
            rw [hDhs, idxAt_congr_sizes hDsz]
            exact hlocC
          have hDwf2 : WF stD := hDwf hwC
          split at h
          · rename_i hsz_le
            have hp := Option.some.inj h
            have hst := congrArg Prod.fst hp
            have hr := congrArg Prod.snd hp
            dsimp only at hst hr
            subst hst
            subst hr
            refine ⟨hDwf2, ?_, fun hc2 => absurd hc2 (by simp), ?_⟩
            · intro hinv
              exact hDnaf (hcondC hinv).1
            · intro a2 hr2
              obtain rfl : aC = a2 := Option.some.inj hr2
              refine ⟨lo, ⟨bC.size, true, false⟩, hDloc, hDat, rfl, hsz_le, ?_⟩
              intro hinv y hy
              have hy2 : stC.blocks[lo + 1]? = some y := by
                rw [← hDout (lo + 1) (by omega)]
                exact hy
              exact (hcondC hinv).2.2 y hy2
          · rename_i hsz_gt
            have hwE : WF (free_list_insert stD aC false) := WF_fli stD aC false hDwf2
            have hnafE : noAdjFree st.blocks = true →
                noAdjFree (free_list_insert stD aC false).blocks = true := by
              intro hinv
              have hinvD : noAdjFree stD.blocks = true := hDnaf (hcondC hinv).1
              rw [fli_eq false hDloc hDat]
              dsimp only
              refine noAdjFree_set_nbrs hinvD ?_ ?_
              · intro x h0 hx
                have hx2 : stC.blocks[lo - 1]? = some x := by
                  rw [← hDout (lo - 1) (by omega)]
                  exact hx
                exact (hcondC hinv).2.1 x h0 hx2
              · intro y hy
                have hy2 : stC.blocks[lo + 1]? = some y := by
                  rw [← hDout (lo + 1) (by omega)]
                  exact hy
                exact (hcondC hinv).2.2 y hy2
            obtain ⟨ih1, ih2, ih3, ih4⟩ := ih hwE h
            refine ⟨ih1, fun hinv => ih2 (hnafE hinv), ih3, ?_⟩
            intro a2 hr2
            obtain ⟨i, b, hloc2, hget2, halloc2, hsz2, hnbr2⟩ := ih4 a2 hr2
            exact ⟨i, b, hloc2, hget2, halloc2, hsz2, fun hinv => hnbr2 (hnafE hinv)⟩

/-- `find_block`: preserves well-formedness and the adjacency
    invariant, and any found block is located, large enough, and (under
    the invariant) has a non-coalescable physical successor. -/
theorem find_block_spec {fuel : Nat} {st : AState} {sz : Nat} {st' : AState} {r : Option Nat}
    (hw : WF st) (hsz8 : 8 ∣ sz) (hszpos : 0 < sz)
    (h : find_block fuel st sz = some (st', r)) :
    WF st'
    ∧ (noAdjFree st.blocks = true → noAdjFree st'.blocks = true)
    ∧ (∀ a, r = some a → ∃ i b, idxAt st'.heapStart st'.blocks a = some i
        ∧ st'.blocks[i]? = some b ∧ sz ≤ b.size
        ∧ (noAdjFree st.blocks = true →
            ∀ y, st'.blocks[i + 1]? = some y → coalescableB y = false)) := by
  rw [find_block] at h
  rcases hs : sweep fuel st sz with _ | ⟨st1, r1⟩
  · rw [hs] at h
    exact absurd h (by simp)
  · rw [hs] at h
    obtain ⟨hw1, hnaf1, hempty1, hfound1⟩ := sweep_spec fuel hw hs
    rcases r1 with _ | a1
    · dsimp only at h
      have hp := Option.some.inj h
      have hst := congrArg Prod.fst hp
      have hr := congrArg Prod.snd hp
      dsimp only at hst hr
      subst hst
      subst hr
      refine ⟨hw1, hnaf1, ?_⟩
      intro a hr2
      obtain ⟨ix, hixmem, hfind⟩ := scanLists_spec _ hr2
      rw [List.mem_range'_1] at hixmem
      have hixlt : ix < LISTCOUNT := by
        have := fli_toNat_lt sz
        omega
      obtain ⟨hmem_l, hbig⟩ := find_in_list_spec hfind
      have hentry := hw1.2.2.1 ix hixlt a hmem_l
      obtain ⟨i, b, hloc, hget, hfree, hor⟩ := entryOK_iff.mp hentry
      have hbOK : blockOK b = true := hw1.2.1 b (mem_of_getElem?_eq hget)
      simp only [blockOK, Bool.and_eq_true, decide_eq_true_eq, Bool.not_eq_true'] at hbOK
      obtain ⟨⟨hbpos, hb8⟩, hbq⟩ := hbOK
      refine ⟨i, b, hloc, hget, ?_, ?_⟩
      · by_cases hlarge : MAXSMALL < sz
        · have h1 := hbig hlarge
          have h2 : blockAt st1 a = some b := by
            rw [blockAt_def, hloc]
            exact hget
          have h3 : sizeAt st1 a = b.size := by
            rw [sizeAt, h2]
            rfl
          omega
        · push_neg at hlarge
          rcases hor with rfl | hfli
          · rw [hempty1 rfl] at hmem_l
            exact absurd hmem_l (by simp)
          · refine small_bucket_ge hlarge hsz8 hszpos hbpos hb8 ?_ ?_
            · rw [hfli]
              rcases Nat.eq_zero_or_pos ix with rfl | hpos2
              · rw [hempty1 rfl] at hmem_l
                exact absurd hmem_l (by simp)
              · exact hpos2
            · rw [hfli]
              exact hixmem.1
      · intro hinv y hy
        have hinv1 := hnaf1 hinv
        have hcb : coalescableB b = true := by
          rw [coalescableB, hfree, hbq]
          rfl
        have hp2 := (noAdjFree_iff st1.blocks).mp hinv1 i b y hget hy
        cases hcy : coalescableB y
        · rfl
        · exact absurd ⟨hcb, hcy⟩ hp2
    · dsimp only at h
      have hp := Option.some.inj h
      have hst := congrArg Prod.fst hp
      have hr := congrArg Prod.snd hp
      dsimp only at hst hr
      subst hst
      subst hr
      refine ⟨hw1, hnaf1, ?_⟩
      intro a hr2
      obtain rfl : a1 = a := Option.some.inj hr2
      obtain ⟨i, b, hloc, hget, halloc, hszle, hnbr⟩ := hfound1 a1 rfl
      exact ⟨i, b, hloc, hget, hszle, hnbr⟩

/-! ## Claim C7 (confirmed) -/

/-- **C7.**  For every requested (8-byte-aligned, positive) block size
    `s`, `find_block` on a well-formed state returns either "not found"
    or a block of size at least `s`; in particular the small-size path
    returns a bucket head without a size check, and the free-list
    well-formedness invariant (every non-unsorted list holds only blocks
    whose `find_list_index` equals that list's index) still forces its
    size to be at least `s`. -/
theorem C7_find_block_ge (fuel : Nat) (st : AState) (s : Nat) (st' : AState)
    (r : Option Nat) (a : Nat)
    (hw : WF st) (hs8 : 8 ∣ s) (hs : 0 < s)
    (h : find_block fuel st s = some (st', r)) (hr : r = some a) :
    s ≤ sizeAt st' a := by
  obtain ⟨_, _, hfound⟩ := find_block_spec hw hs8 hs h
  obtain ⟨i, b, hloc, hget, hsz, _⟩ := hfound a hr
  have h2 : blockAt st' a = some b := by
    rw [blockAt_def, hloc]
    exact hget
  have h3 : sizeAt st' a = b.size := by
    rw [sizeAt, h2]
    rfl
  omega

/-- A well-formed state with one free 48-byte block (at address 616) on
    its exact-size bucket (index 5) and one allocated block, used to
    instantiate C7. -/
def c7state : AState :=
  ⟨616, [⟨48, false, false⟩, ⟨48, true, false⟩],
   (List.replicate LISTCOUNT ([] : List Nat)).set 5 [616], 0, 0, 744, fun _ => 0, true⟩

/-- **C7, witness**: a request of 40 bytes on `c7state` takes the
    small-size path, returns the bucket head 616 without a size check,
    and its size 48 is indeed at least 40. -/
theorem C7_witness :
    (WF c7state ∧ (8 ∣ 40) ∧ 0 < 40
      ∧ find_block 3 c7state 40 = some (c7state, some 616))
    ∧ 40 ≤ sizeAt c7state 616 := by
  have hwf : WF c7state := by
    refine ⟨by decide, by decide, ?_, by decide⟩
    decide
  refine ⟨⟨hwf, by decide, by decide, by rfl⟩, ?_⟩
  exact C7_find_block_ge 3 c7state 40 c7state (some 616) 616 hwf (by decide) (by decide)
    (by rfl) rfl


/-! ## INV: the conjunction of well-formedness and the adjacency
    invariant, preserved by the public operations other than resize -/

/-- `split` preserves well-formedness; and when the block being split is
    allocated and its physical successor is non-coalescable, it also
    preserves the adjacency invariant (the remainder lands between the
    shrunk allocated block and that successor). -/
theorem split_spec {st : AState} {a size i : Nat} {b : B}
    (hw : WF st)
    (hi : idxAt st.heapStart st.blocks a = some i) (hb : st.blocks[i]? = some b)
    (hal : b.alloc = true) (hsz8 : 8 ∣ size) (hszpos : 0 < size) :
    WF (split st a size)
    ∧ (noAdjFree st.blocks = true →
        (∀ y, st.blocks[i + 1]? = some y → coalescableB y = false) →
        noAdjFree (split st a size).blocks = true) := by
  obtain ⟨hlen, hblocks, hentries, hinit⟩ := hw
  have hilen : i < st.blocks.length := (idxAt_some hi).1
  have haddr : a = st.heapStart + sumsz (st.blocks.take i) := (idxAt_some hi).2
  have hpos : ∀ x ∈ st.blocks, 0 < x.size := by
    intro x hx
    have := hblocks x hx
    simp only [blockOK, Bool.and_eq_true, decide_eq_true_eq] at this
    exact this.1.1
  have hbOK := hblocks b (mem_of_getElem?_eq hb)
  simp only [blockOK, Bool.and_eq_true, decide_eq_true_eq, Bool.not_eq_true'] at hbOK
  obtain ⟨⟨hbpos, hb8⟩, hbq⟩ := hbOK
  rw [split, hi]
  dsimp only
  rw [hb]
  dsimp only
  by_cases hmin : MINBLOCK ≤ b.size - size
  · simp only [if_pos hmin]
    rw [MINBLOCK] at hmin
    have hble : size + 32 ≤ b.size := by omega
    have hXlen : (st.blocks.take i).length = i := by
      rw [List.length_take]
      omega
    have hdecomp : st.blocks = st.blocks.take i ++ ([b] ++ st.blocks.drop (i + 1)) := by
      conv_lhs => rw [← List.take_append_drop i st.blocks]
      have hd : st.blocks.drop i = b :: st.blocks.drop (i + 1) := by
        rw [List.drop_eq_getElem_cons hilen]
        obtain ⟨h1, h2⟩ := List.getElem?_eq_some_iff.mp hb
        rw [h2]
      rw [hd]
      rfl
    have hS : sumsz [{ b with size := size }, (⟨b.size - size, true, false⟩ : B)]
        = sumsz [b] := by
      simp [sumsz]
      omega
    have hpos' : ∀ x ∈ [{ b with size := size }, (⟨b.size - size, true, false⟩ : B)],
        0 < x.size := by
      intro x hx
      rcases List.mem_cons.mp hx with rfl | hx
      · exact hszpos
      · rcases List.mem_cons.mp hx with rfl | hx
        · show 0 < b.size - size
          omega
        · simp at hx
    have hw2 : WF { st with blocks := (st.blocks.take i ++
        { b with size := size } :: (⟨b.size - size, true, false⟩ : B) ::
          st.blocks.drop (i + 1)) } := by
      refine ⟨hlen, ?_, ?_, hinit⟩
      · intro x hx
        rcases List.mem_append.mp hx with hx | hx
        · exact hblocks x (List.take_subset i st.blocks hx)
        · rcases List.mem_cons.mp hx with rfl | hx
          · simp only [blockOK, Bool.and_eq_true, decide_eq_true_eq]
            exact ⟨⟨hszpos, hsz8⟩, by rw [hbq]; rfl⟩
          · rcases List.mem_cons.mp hx with rfl | hx
            · simp only [blockOK, Bool.and_eq_true, decide_eq_true_eq]
              exact ⟨⟨by omega, Nat.dvd_sub' hb8 hsz8⟩, rfl⟩
            · exact hblocks x (List.drop_subset (i + 1) st.blocks hx)
      · intro ix hix a'' ha''
        obtain ⟨j, bj, hj, hbj, hfree, hor⟩ := entryOK_iff.mp (hentries ix hix a'' ha'')
        have hji : j ≠ i := by
          intro hc
          subst hc
          rw [hb] at hbj
          obtain rfl := Option.some.inj hbj
          rw [hal] at hfree
          exact absurd hfree (by simp)
        have hj2 : idxAt st.heapStart
            (st.blocks.take i ++ ([b] ++ st.blocks.drop (i + 1))) a'' = some j := by
          rw [← hdecomp]
          exact hj
        have hrepl := idxAt_replace
          [{ b with size := size }, (⟨b.size - size, true, false⟩ : B)]
          hS (by simp) hpos' hj2
        have hjlt : j < st.blocks.length := (idxAt_some hj).1
        rcases Nat.lt_or_ge j i with hjc | hjc
        · obtain ⟨hidx', hget'⟩ := hrepl.1 (by omega)
          refine entryOK_iff.mpr ⟨j, bj, ?_, ?_, hfree, hor⟩
          · show idxAt st.heapStart (st.blocks.take i ++
              { b with size := size } :: (⟨b.size - size, true, false⟩ : B) ::
                st.blocks.drop (i + 1)) a'' = some j
            simpa using hidx'
          · show (st.blocks.take i ++
              { b with size := size } :: (⟨b.size - size, true, false⟩ : B) ::
                st.blocks.drop (i + 1))[j]? = some bj
            have h3 := hget'
            rw [← hdecomp] at h3
            rw [hbj] at h3
            simpa using h3
        · have hjge : i + 1 ≤ j := by omega
          obtain ⟨hidx', hget'⟩ := hrepl.2 (by rw [hXlen]; simpa using hjge)
          refine entryOK_iff.mpr ⟨j + 1, bj, ?_, ?_, hfree, hor⟩
          · show idxAt st.heapStart (st.blocks.take i ++
              { b with size := size } :: (⟨b.size - size, true, false⟩ : B) ::
                st.blocks.drop (i + 1)) a'' = some (j + 1)
            have h4 := hidx'
            simp only [List.length_cons, List.length_nil] at h4
            rw [show j - 1 + 2 = j + 1 from by omega] at h4
            simpa using h4
          · have h3 := hget'
            rw [← hdecomp] at h3
            rw [hbj] at h3
            simp only [List.length_cons, List.length_nil] at h3
            rw [show j - 1 + 2 = j + 1 from by omega] at h3
            simpa using h3
    have hsum2 : sumsz (st.blocks.take i ++ [{ b with size := size }])
        = sumsz (st.blocks.take i) + size := by
      rw [sumsz_append]
      simp [sumsz]
    have hloc2 : idxAt st.heapStart (st.blocks.take i ++
        { b with size := size } :: (⟨b.size - size, true, false⟩ : B) ::
          st.blocks.drop (i + 1)) (a + size) = some (i + 1) := by
      have hposX : ∀ x ∈ st.blocks.take i ++ [{ b with size := size }], 0 < x.size := by
        intro x hx
        rcases List.mem_append.mp hx with hx | hx
        · exact hpos x (List.take_subset i st.blocks hx)
        · rcases List.mem_cons.mp hx with rfl | hx
          · exact hszpos
          · simp at hx
      have hterm := @idxAt_last st.heapStart (st.blocks.take i ++ [{ b with size := size }])
        (⟨b.size - size, true, false⟩ : B) (st.blocks.drop (i + 1)) hposX
      rw [List.append_assoc, hsum2] at hterm
      have hlen2 : (st.blocks.take i ++ [{ b with size := size }]).length = i + 1 := by
        rw [List.length_append, hXlen]
        rfl
      rw [hlen2] at hterm
      rw [show a + size = st.heapStart + (sumsz (st.blocks.take i) + size) from by omega]
      simpa using hterm
    have hget2 : (st.blocks.take i ++
        { b with size := size } :: (⟨b.size - size, true, false⟩ : B) ::
          st.blocks.drop (i + 1))[i + 1]? = some ⟨b.size - size, true, false⟩ := by
      rw [List.getElem?_append, hXlen, if_neg (by omega),
         show i + 1 - i = 0 + 1 from by omega]
      simp only [List.getElem?_cons_succ, List.getElem?_cons_zero]
    constructor
    · exact WF_fli _ _ _ hw2
    · intro hinv hnbr
      rw [fli_eq true hloc2 hget2]
      dsimp only
      refine noAdjFree_set_nbrs ?_ ?_ ?_
      · -- the invariant holds on the pre-insert split blocks
        have hXnaf : noAdjFree (st.blocks.take i) = true := noAdjFree_take i hinv
        have hZnaf : noAdjFree ((⟨b.size - size, true, false⟩ : B) ::
            st.blocks.drop (i + 1)) = true := by
          have h1 : noAdjFree (st.blocks.drop (i + 1)) = true := noAdjFree_drop _ hinv
          have := @noAdjFree_glue [] (st.blocks.drop (i + 1))
            (⟨b.size - size, true, false⟩ : B) (by rw [coalescableB]; rfl) rfl h1
          simpa using this
        have := @noAdjFree_glue (st.blocks.take i)
          ((⟨b.size - size, true, false⟩ : B) :: st.blocks.drop (i + 1))
          { b with size := size }
          (by rw [coalescableB]; show (!b.alloc && !b.quick) = false; rw [hal]; rfl)
          hXnaf hZnaf
        simpa using this
      · intro x h0 hx
        have hxi : (st.blocks.take i ++
            { b with size := size } :: (⟨b.size - size, true, false⟩ : B) ::
              st.blocks.drop (i + 1))[i]? = some { b with size := size } := by
          rw [List.getElem?_append, hXlen, if_neg (by omega), Nat.sub_self]
          simp only [List.getElem?_cons_zero]
        rw [show i + 1 - 1 = i from by omega] at hx
        rw [hxi] at hx
        obtain rfl := Option.some.inj hx
        rw [coalescableB]
        show (!b.alloc && !b.quick) = false
        rw [hal]
        rfl
      · intro y hy
        have hyi : (st.blocks.take i ++
            { b with size := size } :: (⟨b.size - size, true, false⟩ : B) ::
              st.blocks.drop (i + 1))[i + 1 + 1]? = st.blocks[i + 1]? := by
          rw [List.getElem?_append, hXlen, if_neg (by omega),
             show i + 1 + 1 - i = 0 + 1 + 1 from by omega]
          simp only [List.getElem?_cons_succ, List.getElem?_drop, Nat.add_zero]
        rw [hyi] at hy
        exact hnbr y hy
  · simp only [if_neg hmin]
    exact ⟨⟨hlen, hblocks, hentries, hinit⟩, fun h _ => h⟩

/-- The tail of `malloc` (`malloc_fin`): removes the found block from
    its list, splits, and returns the payload pointer; preserves
    well-formedness and (given a non-coalescable successor) the
    adjacency invariant. -/
theorem malloc_fin_spec {st : AState} {a size : Nat} {st' : AState} {r : Option Nat}
    {i : Nat} {b : B}
    (hw : WF st) (hsz8 : 8 ∣ size) (hszpos : 0 < size)
    (hi : idxAt st.heapStart st.blocks a = some i) (hb : st.blocks[i]? = some b)
    (h : malloc_fin st a size = some (st', r)) :
    WF st'
    ∧ (noAdjFree st.blocks = true →
        (∀ y, st.blocks[i + 1]? = some y → coalescableB y = false) →
        noAdjFree st'.blocks = true) := by
  have hba : blockAt st a = some b := by
    rw [blockAt_def, hi]
    exact hb
  rw [malloc_fin, hba] at h
  dsimp only at h
  have hbq : b.quick = false := by
    have := hw.2.1 b (mem_of_getElem?_eq hb)
    simp only [blockOK, Bool.and_eq_true, Bool.not_eq_true'] at this
    exact this.2
  set stD := if (!b.alloc) = true then free_list_remove st a else st with hstD
  obtain ⟨hDout, hDsz, hDhs, hDerr, hDbud, hDbrk, hDinit, hDmem, hDwf, hDnaf⟩ :=
    flr_ite_facts i hstD (fun _ => hi)
  have hDat : stD.blocks[i]? = some ⟨b.size, true, false⟩ := flr_ite_self hi hb hbq hstD
  have hDloc : idxAt stD.heapStart stD.blocks a = some i := by
    rw [hDhs, idxAt_congr_sizes hDsz]
    exact hi
  have hp := Option.some.inj h
  have hst := congrArg Prod.fst hp
  dsimp only at hst
  subst hst
  obtain ⟨hw', hnaf'⟩ := split_spec (hDwf hw) hDloc hDat rfl hsz8 hszpos
  refine ⟨hw', ?_⟩
  intro hinv hnbr
  refine hnaf' (hDnaf hinv) ?_
  intro y hy
  refine hnbr y ?_
  rw [← hDout (i + 1) (by omega)]
  exact hy

/-- An errno write alone never disturbs well-formedness. -/
theorem WF_errno (st : AState) (e : Nat) (hw : WF st) :
    WF { st with errno := e } := by
  obtain ⟨hlen, hblocks, hentries, hinit⟩ := hw
  exact ⟨hlen, hblocks, hentries, hinit⟩

/-- The fresh-extension arm of `malloc_grow` (and the whole of it when
    the heap is empty or ends in an allocated block): extend the heap by
    a whole new block and finish. -/
theorem extend_fin_spec {st : AState} {size : Nat} {st' : AState} {r : Option Nat}
    (hw : WF st) (hsz8 : 8 ∣ size) (hszpos : 0 < size)
    (h : malloc_fin { st with
            blocks := (st.blocks ++ [⟨size, true, false⟩]),
            budget := (st.budget - size),
            brk := (st.brk + size) } (epilogue st) size
         = some (st', r)) :
    WF st' ∧ (noAdjFree st.blocks = true → noAdjFree st'.blocks = true) := by
  obtain ⟨hlen, hblocks, hentries, hinit⟩ := hw
  have hpos : ∀ x ∈ st.blocks, 0 < x.size := by
    intro x hx
    have := hblocks x hx
    simp only [blockOK, Bool.and_eq_true, decide_eq_true_eq] at this
    exact this.1.1
  have hnewOK : blockOK ⟨size, true, false⟩ = true := by
    simp only [blockOK, Bool.and_eq_true, decide_eq_true_eq]
    exact ⟨⟨hszpos, hsz8⟩, rfl⟩
  have hloc : idxAt st.heapStart (st.blocks ++ [(⟨size, true, false⟩ : B)]) (epilogue st)
      = some st.blocks.length := by
    have := @idxAt_last st.heapStart st.blocks (⟨size, true, false⟩ : B) [] hpos
    rw [epilogue]
    exact this
  have hget : (st.blocks ++ [(⟨size, true, false⟩ : B)])[st.blocks.length]?
      = some ⟨size, true, false⟩ := by
    rw [List.getElem?_append, if_neg (by omega), Nat.sub_self]
    simp only [List.getElem?_cons_zero]
  have hwE : WF { st with
      blocks := (st.blocks ++ [⟨size, true, false⟩]),
      budget := (st.budget - size),
      brk := (st.brk + size) } := by
    refine ⟨hlen, ?_, ?_, hinit⟩
    · intro x hx
      rcases List.mem_append.mp hx with hx | hx
      · exact hblocks x hx
      · rcases List.mem_cons.mp hx with rfl | hx
        · exact hnewOK
        · simp at hx
    · intro ix hix a'' ha''
      obtain ⟨j, bj, hj, hbj, hfree, hor⟩ := entryOK_iff.mp (hentries ix hix a'' ha'')
      refine entryOK_iff.mpr ⟨j, bj, ?_, ?_, hfree, hor⟩
      · show idxAt st.heapStart (st.blocks ++ [(⟨size, true, false⟩ : B)]) a'' = some j
        exact idxAt_append_left _ hj
      · show (st.blocks ++ [(⟨size, true, false⟩ : B)])[j]? = some bj
        rw [List.getElem?_append, if_pos (by simp [(idxAt_some hj).1])]
        exact hbj
  obtain ⟨hw', hnaf'⟩ := malloc_fin_spec hwE hsz8 hszpos hloc hget h
  refine ⟨hw', ?_⟩
  intro hinv
  refine hnaf' ?_ ?_
  · show noAdjFree (st.blocks ++ [(⟨size, true, false⟩ : B)]) = true
    exact noAdjFree_glue (by rw [coalescableB]; rfl) hinv rfl
  · intro y hy
    have hnone : (st.blocks ++ [(⟨size, true, false⟩ : B)])[st.blocks.length + 1]? = none := by
      rw [List.getElem?_eq_none]
      simp
    rw [hnone] at hy
    exact absurd hy (by simp)

/-- The heap-growth arm of `malloc`: all three branches (absorb into a
    trailing free block, extend after a trailing allocated block, extend
    an empty heap) preserve well-formedness and the adjacency
    invariant. -/
theorem malloc_grow_spec {st : AState} {size : Nat} {st' : AState} {r : Option Nat}
    (hw : WF st) (hsz8 : 8 ∣ size) (hszpos : 0 < size)
    (h : malloc_grow st size = some (st', r)) :
    WF st' ∧ (noAdjFree st.blocks = true → noAdjFree st'.blocks = true) := by
  obtain ⟨hlen, hblocks, hentries, hinit⟩ := hw
  rw [malloc_grow] at h
  rcases hlast : st.blocks.getLast? with _ | lb
  · -- empty heap (the branch also covers via the fresh-extension lemma)
    rw [hlast] at h
    dsimp only at h
    rcases hext : extend_heap st size with ⟨stE, oE⟩
    rw [hext] at h
    rcases oE with _ | aE
    · dsimp only at h
      have hp := Option.some.inj h
      have hst := congrArg Prod.fst hp
      dsimp only at hst
      subst hst
      have hE := extend_heap_fail hext
      subst hE
      exact ⟨WF_errno st ENOMEM ⟨hlen, hblocks, hentries, hinit⟩, fun hinv => hinv⟩
    · dsimp only at h
      rw [extend_heap] at hext
      split at hext
      · exact absurd (congrArg Prod.snd hext) (by simp)
      · have hstE := congrArg Prod.fst hext
        have haE := congrArg Prod.snd hext
        dsimp only at hstE haE
        obtain rfl := hstE
        obtain rfl : epilogue st = aE := Option.some.inj haE
        exact extend_fin_spec ⟨hlen, hblocks, hentries, hinit⟩ hsz8 hszpos h
  · rw [hlast] at h
    dsimp only at h
    by_cases halb : (!lb.alloc) = true
    · -- the trailing block is free: absorb it into the extension
      simp only [halb, if_true] at h
      rcases hext : extend_heap st ((U64 + size - lb.size) % U64) with ⟨stE, oE⟩
      rw [hext] at h
      rcases oE with _ | w
      · dsimp only at h
        have hp := Option.some.inj h
        have hst := congrArg Prod.fst hp
        dsimp only at hst
        subst hst
        have hE := extend_heap_fail hext
        subst hE
        exact ⟨WF_errno st ENOMEM ⟨hlen, hblocks, hentries, hinit⟩, fun hinv => hinv⟩
      · dsimp only at h
        rw [extend_heap] at hext
        split at hext
        · exact absurd (congrArg Prod.snd hext) (by simp)
        · have hstE := congrArg Prod.fst hext
          dsimp only at hstE
          obtain rfl := hstE
          have hne : st.blocks ≠ [] := by
            intro hc
            rw [hc] at hlast
            simp at hlast
          obtain ⟨X, hXeq⟩ : ∃ X, st.blocks = X ++ [lb] := by
            refine ⟨st.blocks.dropLast, ?_⟩
            have h1 := List.dropLast_append_getLast hne
            have h2 : st.blocks.getLast hne = lb := by
              have := List.getLast?_eq_getLast st.blocks hne
              rw [hlast] at this
              exact (Option.some.inj this).symm
            rw [h2] at h1
            exact h1.symm
          rw [hXeq] at h hblocks ⊢
          rw [List.dropLast_concat] at h
          have hpos : ∀ x ∈ X ++ [lb], 0 < x.size := by
            intro x hx
            have := hblocks x hx
            simp only [blockOK, Bool.and_eq_true, decide_eq_true_eq] at this
            exact this.1.1
          have hposX : ∀ x ∈ X, 0 < x.size := by
            intro x hx
            exact hpos x (by simp [hx])
          have hlocE : idxAt st.heapStart
              ((X ++ [lb]) ++ [(⟨(U64 + size - lb.size) % U64, true, false⟩ : B)])
              (st.heapStart + sumsz X) = some X.length := by
            rw [List.append_assoc]
            have := @idxAt_last st.heapStart X lb
              ([(⟨(U64 + size - lb.size) % U64, true, false⟩ : B)]) hposX
            simpa using this
          have hgetE : ((X ++ [lb]) ++ [(⟨(U64 + size - lb.size) % U64, true, false⟩ : B)])[X.length]?
              = some lb := by
            rw [List.getElem?_append, if_pos (by simp), List.getElem?_append,
               if_neg (by omega), Nat.sub_self]
            simp only [List.getElem?_cons_zero]
          rw [flr_eq hlocE hgetE] at h
          dsimp only at h
          have hset : ((X ++ [lb]) ++ [(⟨(U64 + size - lb.size) % U64, true, false⟩ : B)]).set
              X.length (⟨lb.size, true, false⟩ : B)
              = (X ++ [(⟨lb.size, true, false⟩ : B)]) ++
                [(⟨(U64 + size - lb.size) % U64, true, false⟩ : B)] := by
            rw [List.set_append, if_pos (by simp), List.set_append, if_neg (by omega),
               Nat.sub_self]
            rfl
          rw [hset, List.dropLast_concat, List.dropLast_concat] at h
          have hlocG : idxAt st.heapStart (X ++ [(⟨size, true, false⟩ : B)])
              (st.heapStart + sumsz X) = some X.length :=
            @idxAt_last st.heapStart X (⟨size, true, false⟩ : B) [] hposX
          have hgetG : (X ++ [(⟨size, true, false⟩ : B)])[X.length]?
              = some ⟨size, true, false⟩ := by
            rw [List.getElem?_append, if_neg (by omega), Nat.sub_self]
            simp only [List.getElem?_cons_zero]
          have hwG : WF { st with
              blocks := (X ++ [(⟨size, true, false⟩ : B)]),
              freeLists := (listsErase st.freeLists (st.heapStart + sumsz X)),
              budget := (st.budget - (U64 + size - lb.size) % U64),
              brk := (st.brk + (U64 + size - lb.size) % U64) } := by
            refine ⟨by simpa [listsErase] using hlen, ?_, ?_, hinit⟩
            · intro x hx
              rcases List.mem_append.mp hx with hx | hx
              · exact hblocks x (by simp [hx])
              · rcases List.mem_cons.mp hx with rfl | hx
                · simp only [blockOK, Bool.and_eq_true, decide_eq_true_eq]
                  exact ⟨⟨hszpos, hsz8⟩, rfl⟩
                · simp at hx
            · intro ix hix a'' ha''
              obtain ⟨hmem', hne'⟩ := mem_listsErase ha''
              obtain ⟨j, bj, hj, hbj, hfree, hor⟩ := entryOK_iff.mp (hentries ix hix a'' hmem')
              rw [hXeq] at hj hbj
              have hjlt : j < (X ++ [lb]).length := (idxAt_some hj).1
              have hjX : j < X.length := by
                rcases Nat.lt_or_ge j X.length with hc | hc
                · exact hc
                · exfalso
                  have hjeq : j = X.length := by
                    simp only [List.length_append, List.length_cons, List.length_nil] at hjlt
                    omega
                  subst hjeq
                  have hlocLast : idxAt st.heapStart (X ++ [lb])
                      (st.heapStart + sumsz X) = some X.length :=
                    @idxAt_last st.heapStart X lb [] hposX
                  exact hne' (idxAt_inj hj hlocLast)
              have hjpre : idxAt st.heapStart X a'' = some j := by
                rcases idxAt_append_cases hj with ⟨_, hc⟩ | ⟨hc, _⟩
                · exact hc
                · omega
              refine entryOK_iff.mpr ⟨j, bj, ?_, ?_, hfree, hor⟩
              · show idxAt st.heapStart (X ++ [(⟨size, true, false⟩ : B)]) a'' = some j
                exact idxAt_append_left _ hjpre
              · show (X ++ [(⟨size, true, false⟩ : B)])[j]? = some bj
                rw [List.getElem?_append, if_pos (by simpa using hjX)]
                rw [List.getElem?_append, if_pos (by simpa using hjX)] at hbj
                exact hbj
          obtain ⟨hw', hnaf'⟩ := malloc_fin_spec hwG hsz8 hszpos hlocG hgetG h
          refine ⟨hw', ?_⟩
          intro hinv
          refine hnaf' ?_ ?_
          · show noAdjFree (X ++ [(⟨size, true, false⟩ : B)]) = true
            have hXnaf : noAdjFree X = true := by
              have h2 := noAdjFree_take X.length hinv
              rw [List.take_left] at h2
              exact h2
            exact noAdjFree_glue (by rw [coalescableB]; rfl) hXnaf rfl
          · intro y hy
            have hnone : (X ++ [(⟨size, true, false⟩ : B)])[X.length + 1]? = none := by
              rw [List.getElem?_eq_none]
              simp
            rw [hnone] at hy
            exact absurd hy (by simp)
    · -- the trailing block is allocated: extend with a fresh block
      simp only [halb, Bool.false_eq_true, if_false] at h
      rcases hext : extend_heap st size with ⟨stE, oE⟩
      rw [hext] at h
      rcases oE with _ | aE
      · dsimp only at h
        have hp := Option.some.inj h
        have hst := congrArg Prod.fst hp
        dsimp only at hst
        subst hst
        have hE := extend_heap_fail hext
        subst hE
        exact ⟨WF_errno st ENOMEM ⟨hlen, hblocks, hentries, hinit⟩, fun hinv => hinv⟩
      · dsimp only at h
        rw [extend_heap] at hext
        split at hext
        · exact absurd (congrArg Prod.snd hext) (by simp)
        · have hstE := congrArg Prod.fst hext
          have haE := congrArg Prod.snd hext
          dsimp only at hstE haE
          obtain rfl := hstE
          obtain rfl : epilogue st = aE := Option.some.inj haE
          exact extend_fin_spec ⟨hlen, hblocks, hentries, hinit⟩ hsz8 hszpos h

/-! ## Claim C2 (corrected): amended theorem -/

/-- **C2, amended.**  Every `resize(p, u)` call with non-null `p` that
    fails does return null with the out-of-memory indicator set, and the
    payload memory is untouched (the failure happens before any copy);
    but — unlike the claim — partial free-list/block state may be
    visible, because the grow path coalesces before it can fail (see the
    counterexample). -/
theorem C2_fail_sets_errno (fuel : Nat) (st : AState) (p u : Nat) (st' : AState)
    (hp : p ≠ 0) (h : realloc fuel st p u = some (st', none)) :
    st'.errno = ENOMEM ∧ st'.mem = st.mem := by
  rw [realloc, if_neg hp] at h
  split at h
  · exact absurd h (by simp)
  · rename_i st2 heq1
    have hmem2 : st2.mem = st.mem := by
      split at heq1
      · exact mem_free heq1
      · exact congrArg AState.mem (Option.some.inj heq1).symm
    dsimp only at h
    split at h
    · exact absurd h (by simp)
    · rename_i b0 heq2
      split at h
      · exact absurd h (by simp)
      · rename_i st3 a heq3
        have hmem3 : st3.mem = st2.mem := by
          split at heq3
          · exact mem_reallocLoop fuel heq3
          · exact congrArg AState.mem (congrArg Prod.fst (Option.some.inj heq3)).symm
        split at h
        · exact absurd h (by simp)
        · rename_i b heq4
          split at h
          · -- grow path
            split at h
            · -- in-place heap extension
              split at h
              · -- extension failed: errno set by extend_heap
                rename_i st4 hext
                obtain rfl : st4 = st' := congrArg Prod.fst (Option.some.inj h)
                have h4 := extend_heap_fail hext
                subst h4
                exact ⟨rfl, hmem3.trans hmem2⟩
              · -- extension succeeded: the result is non-null, contradiction
                repeat' split at h
                all_goals first
                  | exact absurd h (by simp)
                  | exact absurd (congrArg Prod.snd (Option.some.inj h)) (by simp)
            · -- move via malloc
              split at h
              · exact absurd h (by simp)
              · -- malloc failed: realloc sets errno itself
                rename_i st4 hm
                obtain rfl : _ = st' := congrArg Prod.fst (Option.some.inj h)
                refine ⟨rfl, ?_⟩
                show st4.mem = st.mem
                exact (mem_malloc hm).trans (hmem3.trans hmem2)
              · -- malloc succeeded: non-null result, contradiction
                rename_i st4 newp hm
                repeat' split at h
                all_goals first
                  | exact absurd h (by simp)
                  | exact absurd (congrArg Prod.snd (Option.some.inj h)) (by simp)
          · -- shrink path: non-null result, contradiction
            exact absurd (congrArg Prod.snd (Option.some.inj h)) (by simp)

/-- The C2 scenario as an explicit state: heap `[F free(48) | B
    alloc(48)]` with `F` (address 616) on the unsorted list, growth
    budget exhausted.  `B`'s payload pointer is 672. -/
def c2state : AState :=
  ⟨616, [⟨48, false, false⟩, ⟨48, true, false⟩],
   [616] :: List.replicate (LISTCOUNT - 1) [], 0, 0, 744, fun _ => 0, true⟩

/-- **C2, witness** for the amended theorem (hypotheses discharged on
    the counterexample run: heap `[F free(48) | B alloc(48)]`, budget
    exhausted, `resize(pB = 672, 4096)`). -/
theorem C2_witness :
    ((672 : Nat) ≠ 0)
    ∧ ((realloc 5 c2state 672 4096).map (fun q => (q.1.errno, q.2))
        = some (ENOMEM, none)) := by
  refine ⟨by decide, ?_⟩
  rcases hc : realloc 5 c2state 672 4096 with _ | ⟨st', r⟩
  · have hs : (realloc 5 c2state 672 4096).isSome = true := by decide
    rw [hc] at hs
    exact absurd hs (by decide)
  · have hr : r = none := by
      have hm : (realloc 5 c2state 672 4096).map (fun q => q.2) = some none := by decide
      rw [hc] at hm
      simpa using hm
    subst hr
    have h2 := C2_fail_sets_errno 5 c2state 672 4096 st' (by decide) hc
    simp only [Option.map_some', h2.1]

/-! ## Claim C2 (corrected): counterexample -/

/-- **C2, counterexample.**  A failed resize CAN leave partial state
    visible.  Build a heap `[F free(48) | B alloc(48)]` with `F` on the
    unsorted list and the growth budget exhausted, then `resize(pB,
    4096)`.  The grow path first coalesces `B` with `F` (removing `F`
    from its list and merging the two blocks), and only then tries to
    extend the heap, which fails.  The call returns null with
    `errno = ENOMEM`, but the free list lost `F` and the two blocks have
    been fused into one: free-list and block mutation are visible after
    the failure, and the caller's pointer no longer points into an
    intact original block. -/
theorem C2_counterexample :
    ((malloc 3 (fresh 0 800) 24).bind fun r1 =>
     (malloc 3 r1.1 24).bind fun r2 =>
     match r1.2 with
     | some p1 =>
       (free r2.1 p1).bind fun st =>
       match r2.2 with
       | some p2 => (realloc 5 st p2 4096).map fun r =>
           (r.2, r.1.errno, decide (r.1.freeLists = st.freeLists),
            decide (r.1.blocks = st.blocks))
       | none => none
     | none => none)
    = some (none, ENOMEM, false, false) := by
  decide

/-! ## Claim C9 (confirmed) -/

/-- **C9.**  `zeroed-allocate(nmemb, size)`: when `size ≠ 0` and
    `nmemb > SIZE_MAX / size` it fails with null and `errno = ENOMEM`,
    changing nothing else; otherwise it allocates `nmemb·size` bytes (by
    definition it calls `malloc` with the product, which has not wrapped
    when the check passes), and whenever a non-null payload `p` comes
    back, every one of the `nmemb·size` payload bytes reads 0. -/
theorem C9_zeroed_allocate (fuel : Nat) (st : AState) (nmemb size : Nat)
    (st' : AState) (r : Option Nat)
    (h : calloc fuel st nmemb size = some (st', r)) :
    ((size ≠ 0 ∧ SIZE_MAX / size < nmemb) →
       r = none ∧ st' = { st with errno := ENOMEM })
    ∧ (∀ p, r = some p → ∀ i, i < nmemb * size → st'.mem (p + i) = 0) := by
  rw [calloc] at h
  split at h
  · rename_i hov
    have h1 : ({ st with errno := ENOMEM } : AState) = st' :=
      congrArg Prod.fst (Option.some.inj h)
    have h2 : (none : Option Nat) = r := congrArg Prod.snd (Option.some.inj h)
    refine ⟨fun _ => ⟨h2.symm, h1.symm⟩, ?_⟩
    intro p hp
    rw [← h2] at hp
    exact absurd hp (by simp)
  · rename_i hov
    split at h
    · exact absurd h (by simp)
    · rename_i st1 hm
      have h1 : st1 = st' := congrArg Prod.fst (Option.some.inj h)
      have h2 : (none : Option Nat) = r := congrArg Prod.snd (Option.some.inj h)
      refine ⟨fun hc => absurd hc hov, ?_⟩
      intro p hp
      rw [← h2] at hp
      exact absurd hp (by simp)
    · rename_i st1 p0 hm
      have h1 : ({ st1 with mem := memset0 st1.mem p0 ((nmemb * size) % U64) } : AState) = st' :=
        congrArg Prod.fst (Option.some.inj h)
      have h2 : (some p0 : Option Nat) = r := congrArg Prod.snd (Option.some.inj h)
      refine ⟨fun hc => absurd hc hov, ?_⟩
      intro p hp i hi
      obtain rfl : p0 = p := by
        rw [← h2] at hp
        exact Option.some.inj hp
      have htot : (nmemb * size) % U64 = nmemb * size := by
        rcases Decidable.not_and_iff_or_not.mp hov with hz | hle
        · have : size = 0 := Decidable.not_not.mp hz
          subst this
          simp
        · have hs0 : 0 < size := by
            rcases Nat.eq_zero_or_pos size with rfl | hs
            · simp at hi
            · exact hs
          have : nmemb ≤ SIZE_MAX / size := Nat.le_of_not_lt hle
          have hprod : nmemb * size ≤ SIZE_MAX := (Nat.le_div_iff_mul_le hs0).mp this
          have : nmemb * size < U64 := by
            have : (0 : Nat) < U64 := by decide
            simp only [SIZE_MAX] at hprod
            omega
          exact Nat.mod_eq_of_lt this
      rw [← h1]
      show memset0 st1.mem p0 ((nmemb * size) % U64) (p0 + i) = 0
      simp only [memset0, htot]
      have hc : p0 ≤ p0 + i ∧ p0 + i < p0 + nmemb * size := by omega
      rw [if_pos hc]

/-- **C9, witness**: `zeroed(SIZE_MAX, 2)` overflows and fails with the
    indicator set; a successful `zeroed(2, 8)` from a fresh process
    returns payload 624 whose 16 payload bytes read 0 (first and last
    byte checked through the theorem). -/
theorem C9_witness :
    ((none : Option Nat) = none
      ∧ ({ stEx with errno := ENOMEM } : AState) = { stEx with errno := ENOMEM })
    ∧ ((calloc 10 (fresh 0 100000) 2 8).map
         (fun q => (q.2, q.1.mem 624, q.1.mem 639)) = some (some 624, 0, 0)) := by
  constructor
  · exact (C9_zeroed_allocate 10 stEx SIZE_MAX 2 { stEx with errno := ENOMEM } none rfl).1
      ⟨by decide, by decide⟩
  · rcases hc : calloc 10 (fresh 0 100000) 2 8 with _ | ⟨st', r⟩
    · have hs : (calloc 10 (fresh 0 100000) 2 8).isSome = true := by decide
      rw [hc] at hs
      exact absurd hs (by decide)
    · have h2 := (C9_zeroed_allocate 10 (fresh 0 100000) 2 8 st' r hc).2
      have hr : r = some 624 := by
        have hm : (calloc 10 (fresh 0 100000) 2 8).map (fun q => q.2)
            = some (some 624) := by decide
        rw [hc] at hm
        simpa using hm
      subst hr
      have z1 : st'.mem 624 = 0 := h2 624 rfl 0 (by norm_num)
      have z2 : st'.mem 639 = 0 := h2 624 rfl 15 (by norm_num)
      simp only [Option.map_some', z1, z2]

/-! ## Claim C5 (corrected): counterexample -/

/-- **C5, counterexample.**  After a public operation two adjacent
    free coalescable blocks CAN exist: allocate three 100-byte blocks
    (A, B, C of size 128 each), free B, then `resize(pA, 24)`.  The
    shrink path splits A and pushes the 80-byte remainder onto the
    unsorted list — physically adjacent to the free block B.  The final
    heap is `[A(48, alloc) | R(80, free) | B(128, free) | C(128,
    alloc)]`, violating invariant 4 at the moment resize returns. -/
theorem C5_counterexample :
    ((malloc 10 (fresh 0 100000) 100).bind fun r1 =>
     (malloc 10 r1.1 100).bind fun r2 =>
     (malloc 10 r2.1 100).bind fun r3 =>
     match r2.2 with
     | some p2 =>
       (free r3.1 p2).bind fun st =>
       match r1.2 with
       | some p1 => (realloc 10 st p1 24).map fun r =>
           (noAdjFree r.1.blocks, r.1.blocks)
       | none => none
     | none => none)
    = some (false, [⟨48, true, false⟩, ⟨80, false, false⟩,
                    ⟨128, false, false⟩, ⟨128, true, false⟩]) := by
  decide

theorem malloc_core_INV {fuel : Nat} {st : AState} {size : Nat} {st' : AState}
    {r : Option Nat}
    (hw : WF st) (hinv : noAdjFree st.blocks = true)
    (hsz8 : 8 ∣ size) (hszpos : 0 < size)
    (h : malloc_core fuel st size = some (st', r)) :
    WF st' ∧ noAdjFree st'.blocks = true := by
  rw [malloc_core] at h
  rcases hfb : find_block fuel st size with _ | ⟨st1, found⟩
  · rw [hfb] at h
    exact absurd h (by simp)
  · rw [hfb] at h
    dsimp only at h
    obtain ⟨hw1, hnaf1, hfound⟩ := find_block_spec hw hsz8 hszpos hfb
    rcases found with _ | a
    · dsimp only at h
      obtain ⟨hw', hnaf'⟩ := malloc_grow_spec hw1 hsz8 hszpos h
      exact ⟨hw', hnaf' (hnaf1 hinv)⟩
    · dsimp only at h
      obtain ⟨i, b, hloc, hget, hszle, hnbr⟩ := hfound a rfl
      obtain ⟨hw', hnaf'⟩ := malloc_fin_spec hw1 hsz8 hszpos hloc hget h
      exact ⟨hw', hnaf' (hnaf1 hinv) (hnbr hinv)⟩

/-- `cALIGN` always produces a multiple of 8 (the mask clears the low
    three bits). -/
theorem cALIGN_dvd8 (s : Nat) : 8 ∣ cALIGN s := by
  rw [cALIGN]
  exact ⟨((s + (ALIGNMENT - 1)) % U64) / 8, by omega⟩

theorem malloc_INV {fuel : Nat} {st : AState} {u : Nat} {st' : AState} {r : Option Nat}
    (hw : WF st) (hinv : noAdjFree st.blocks = true)
    (h : malloc fuel st u = some (st', r)) :
    WF st' ∧ noAdjFree st'.blocks = true := by
  have hinit : st.inited = true := hw.2.2.2
  rw [malloc, malloc_init, if_pos hinit] at h
  dsimp only at h
  split at h
  · have hp := Option.some.inj h
    have hst := congrArg Prod.fst hp
    dsimp only at hst
    subst hst
    exact ⟨hw, hinv⟩
  · rename_i hu0
    split at h
    · have hp := Option.some.inj h
      have hst := congrArg Prod.fst hp
      dsimp only at hst
      subst hst
      exact ⟨WF_errno st ENOMEM hw, hinv⟩
    · rename_i hovf
      refine malloc_core_INV hw hinv (by rw [reqSize]; exact cALIGN_dvd8 _) (by omega) h

/-- A mem write alone never disturbs well-formedness. -/
theorem WF_mem (st : AState) (m : Nat → Nat) (hw : WF st) :
    WF { st with mem := m } := by
  obtain ⟨hlen, hblocks, hentries, hinit⟩ := hw
  exact ⟨hlen, hblocks, hentries, hinit⟩

theorem calloc_INV {fuel : Nat} {st : AState} {nmemb size : Nat} {st' : AState}
    {r : Option Nat}
    (hw : WF st) (hinv : noAdjFree st.blocks = true)
    (h : calloc fuel st nmemb size = some (st', r)) :
    WF st' ∧ noAdjFree st'.blocks = true := by
  rw [calloc] at h
  split at h
  · have hp := Option.some.inj h
    have hst := congrArg Prod.fst hp
    dsimp only at hst
    subst hst
    exact ⟨WF_errno st ENOMEM hw, hinv⟩
  · rcases hm : malloc fuel st ((nmemb * size) % U64) with _ | ⟨st1, o⟩
    · rw [hm] at h
      exact absurd h (by simp)
    · rw [hm] at h
      obtain ⟨hw1, hnaf1⟩ := malloc_INV hw hinv hm
      rcases o with _ | p
      · dsimp only at h
        have hp := Option.some.inj h
        have hst := congrArg Prod.fst hp
        dsimp only at hst
        subst hst
        exact ⟨hw1, hnaf1⟩
      · dsimp only at h
        have hp := Option.some.inj h
        have hst := congrArg Prod.fst hp
        dsimp only at hst
        subst hst
        exact ⟨WF_mem st1 _ hw1, hnaf1⟩

theorem free_INV {st : AState} {p : Nat} {st' : AState}
    (hw : WF st) (hinv : noAdjFree st.blocks = true) (h : free st p = some st') :
    WF st' ∧ noAdjFree st'.blocks = true := by
  rw [free] at h
  split at h
  · obtain rfl := Option.some.inj h
    exact ⟨hw, hinv⟩
  · rcases hc : coalesce st (p - WSIZE) with _ | ⟨stC, aC⟩
    · rw [hc] at h
      exact absurd h (by simp)
    · rw [hc] at h
      dsimp only at h
      obtain rfl : free_list_insert stC aC true = st' := Option.some.inj h
      obtain ⟨hwC, _, _, _, _, _, _, lo, merged, hlocC, hgetC, hcondC⟩ := coalesce_spec hw hc
      refine ⟨WF_fli stC aC true hwC, ?_⟩
      rw [fli_eq true hlocC hgetC]
      dsimp only
      exact noAdjFree_set_nbrs (hcondC hinv).1 (hcondC hinv).2.1 (hcondC hinv).2.2

/-! ## Claim C5 (corrected): amended theorem -/

/-- **C5, amended.**  Starting from a well-formed state in which the
    adjacency invariant holds (no two physically adjacent blocks both
    free and both coalescable), every `allocate`, `zeroed-allocate` and
    `free` call re-establishes well-formedness and the invariant; the
    claim's fourth operation, `resize`, is excluded — its shrink path
    violates the invariant (see the counterexample). -/
theorem C5_preservation (fuel : Nat) (st : AState)
    (hw : WF st) (hinv : noAdjFree st.blocks = true) :
    (∀ u st' r, malloc fuel st u = some (st', r) →
        WF st' ∧ noAdjFree st'.blocks = true)
    ∧ (∀ nmemb sz st' r, calloc fuel st nmemb sz = some (st', r) →
        WF st' ∧ noAdjFree st'.blocks = true)
    ∧ (∀ p st', free st p = some st' →
        WF st' ∧ noAdjFree st'.blocks = true) :=
  ⟨fun _ _ _ h => malloc_INV hw hinv h,
   fun _ _ _ _ h => calloc_INV hw hinv h,
   fun _ _ h => free_INV hw hinv h⟩

/-- The state after `allocate(24)` on the quiescent empty heap `stEx`:
    one allocated 48-byte block, 48 bytes of break growth. -/
def c5state : AState :=
  ⟨16, [⟨48, true, false⟩], List.replicate LISTCOUNT [], 0, 99952, 72, fun _ => 0, true⟩

/-- **C5, witness** for the amended theorem: the `allocate(24)` run on
    `stEx` (whose hypotheses hold by computation) lands in a state that
    is again well-formed with the adjacency invariant intact. -/
theorem C5_witness :
    (WF stEx ∧ noAdjFree stEx.blocks = true
      ∧ malloc 10 stEx 24 = some (c5state, some 24))
    ∧ WF c5state ∧ noAdjFree c5state.blocks = true := by
  have hwf : WF stEx := by
    refine ⟨?_, ?_, ?_, ?_⟩ <;> decide
  have hnaf : noAdjFree stEx.blocks = true := by decide
  have hrun : malloc 10 stEx 24 = some (c5state, some 24) := by rfl
  exact ⟨⟨hwf, hnaf, hrun⟩, (C5_preservation 10 stEx hwf hnaf).1 24 c5state (some 24) hrun⟩

end MM
